import Mathlib

/-!
# Alien invasion simulator (`main.go`): shallow embedding and verified properties

Conventions of the embedding.

* A Go `string` is a list of characters (`Str`).
* A Go `map[string][]T` is an `AList`: a finite map with unique keys.  The order
  of the entries of the `AList` carries no meaning; the order in which a Go
  `range` loop yields the keys is an explicit argument of every loop.
* `m[k]` on a missing key is the nil slice, i.e. the empty list (`mapGet`).
* Distinct map entries never share a backing array, so a slice stored in a map is
  a list value.  The one place where the source reads a slice that it mutates
  in place (`destroyCity`) keeps the backing array explicitly.
* A run-time panic (index out of range) and `log.Fatal` are the two errors of
  `GoError`; functions that can hit them return `Except GoError _`.
* `rand.Intn n` is an argument `r`, used as `r % n`.
-/

namespace AlienInvasion

/-! ## Data model -/

/-- A Go string. -/
abbrev Str := List Char

/-- The type `map[string][]string` of `Invasion.cities`. -/
abbrev CityMap := AList (fun _ : Str => List Str)

/-- The type `map[string][]int` of `Invasion.aliens`. -/
abbrev AlienMap := AList (fun _ : Str => List Int)

/-- The struct `Invasion` (main.go, lines 17-20). -/
structure Invasion where
  cities : CityMap
  aliens : AlienMap

/-- The two ways a Go function of this program stops abnormally. -/
inductive GoError where
  | panic
  | fatal
  deriving DecidableEq

/-- One line printed by `destroyCity`: the city and the two credited aliens. -/
structure Event where
  city : Str
  first : Int
  second : Int
  deriving DecidableEq

/-- The Go expression `m[k]` for a map of slices: the nil slice when `k` is absent. -/
def mapGet {V : Type} (m : AList (fun _ : Str => List V)) (k : Str) : List V :=
  (m.lookup k).getD []

/-- The Go expression `len(m)` for a map. -/
def mapLen {V : Type} (m : AList (fun _ : Str => List V)) : Nat :=
  m.keys.length

/-- Number of aliens held by an alien map (sum of the lengths of all entries). -/
def alienCount (m : AlienMap) : Nat :=
  (m.entries.map (fun e => e.2.length)).sum

/-! ## Strings -/

/-- The call `strings.Contains(s, sub)`: `sub` occurs in `s` as a contiguous block. -/
def strContains (s sub : Str) : Bool :=
  decide (sub <:+: s)

/-- What the regular expression `^(.*?)=` leaves of a string it matches: the text
after the first `=`, provided no newline comes before it (`.` does not match a
newline); `none` when the expression does not match. -/
def afterLabel : Str → Option Str
  | [] => none
  | c :: cs => if c = '=' then some cs else if c = '\n' then none else afterLabel cs

/-- The call `reg.ReplaceAllString(s, "")` with `reg = ^(.*?)=` (lines 174/183 and
223/230): the direction label and its `=` are removed; a string the expression
does not match is returned unchanged. -/
def stripLabel (s : Str) : Str :=
  (afterLabel s).getD s

/-- The call `strings.Split(s, " ")`. -/
def splitOnSpace : Str → List Str
  | [] => [[]]
  | c :: cs =>
    if c = ' ' then [] :: splitOnSpace cs
    else
      match splitOnSpace cs with
      | [] => [[c]]
      | w :: ws => (c :: w) :: ws

/-! ## `writeMapState` (lines 50-80) and the scanner -/

/-- Lines 63-69: the edges of one city, with a space after each but the last. -/
def writeEdges : List Str → Str
  | [] => []
  | [c] => c
  | c :: d :: rest => c ++ ' ' :: writeEdges (d :: rest)

/-- Lines 60-71: the line written for `city`: its name and a space, its edges, and
a newline. -/
def writeCity (cities : CityMap) (city : Str) : Str :=
  city ++ ' ' :: (writeEdges (mapGet cities city) ++ ['\n'])

/-- The function `writeMapState`: the content of the file `result`, the range
yielding the keys of `cities` in the order `order`.  Failures of the file system
(`os.Create`, `WriteString`) are not modelled. -/
def writeMapState (cities : CityMap) (order : List Str) : Str :=
  (order.map (writeCity cities)).flatten

/-- Drops one trailing carriage return (`dropCR` of package `bufio`). -/
def dropCR (line : Str) : Str :=
  if line.getLast? = some '\r' then line.dropLast else line

/-- The lines `bufio.ScanLines` yields after the text `cur` (held reversed) of a
line that has begun: a line ends at a newline, loses one trailing carriage
return, and a last line without newline is yielded when it is not empty.  The
bound of the scanner on the length of a line is not modelled. -/
def scanFrom : Str → Str → List Str
  | cur, [] => if cur = [] then [] else [dropCR cur.reverse]
  | cur, c :: cs => if c = '\n' then dropCR cur.reverse :: scanFrom [] cs else scanFrom (c :: cur) cs

/-- The lines a scanner with `bufio.ScanLines` yields for the content of a file
(lines 100-104 of `populateCities`). -/
def scanLines (data : Str) : List Str :=
  scanFrom [] data

/-! ## `populateCities` (lines 98-134) -/

/-- Lines 118-125: the loop over `currentCity[1:]`. -/
def addNeighbors (name : Str) : List Str → CityMap → CityMap
  | [], m => m
  | neighbor :: rest, m =>
    if strContains neighbor name then addNeighbors name rest m
    else addNeighbors name rest (m.insert name (mapGet m name ++ [neighbor]))

/-- Lines 106-125: the body of the scanner loop, for one line of the file. -/
def populateLine (populated : CityMap) (line : Str) : CityMap :=
  match splitOnSpace line with
  | [] => populated
  | name :: tokens =>
    addNeighbors name tokens
      (if (mapGet populated name).length = 0 then populated.insert name [] else populated)

/-- The function `populateCities`, on the lines the scanner yields. -/
def populateCities (lines : List Str) : Except GoError CityMap :=
  let populated := lines.foldl populateLine ∅
  if mapLen populated = 0 then .error .fatal else .ok populated

/-! ## `populateAliens` (lines 138-166) -/

/-- Lines 154-159: a city is drawn, and drawn again while the city drawn holds
exactly two aliens.  The argument lists the successive values of `rand.Intn`;
the result is the accepted city with the draws left, or `none` when the listed
draws are used up before a city is accepted. -/
def pickCity (uniqueCities : List Str) (aliens : AlienMap) : List Nat → Option (Str × List Nat)
  | [] => none
  | r :: rest =>
    if (mapGet aliens (uniqueCities.getD (r % uniqueCities.length) [])).length = 2 then
      pickCity uniqueCities aliens rest
    else some (uniqueCities.getD (r % uniqueCities.length) [], rest)

/-- Lines 152-163: the loop `for i := 0; i < numAliens; i++` (`todo` iterations
remain).  `rand.Intn(0)` panics, so drawing from an empty city list is a panic.
The value `.ok none` stands for a run whose listed draws are used up. -/
def placeAliens (uniqueCities : List Str) : Nat → Int → AlienMap → List Nat →
    Except GoError (Option AlienMap)
  | 0, _, aliens, _ => .ok (some aliens)
  | todo + 1, i, aliens, draws =>
    if uniqueCities.length = 0 then .error .panic
    else
      match pickCity uniqueCities aliens draws with
      | none => .ok none
      | some (city, rest) =>
        placeAliens uniqueCities todo (i + 1) (aliens.insert city (mapGet aliens city ++ [i])) rest

/-- The function `populateAliens`.  `uniqueCities` is the list of lines 146-150: the
keys of `cities` in the order the range yields them. -/
def populateAliens (numAliens : Int) (cities : CityMap) (uniqueCities : List Str)
    (draws : List Nat) : Except GoError (Option AlienMap) :=
  if numAliens > (mapLen cities : Int) * 2 then .error .fatal
  else placeAliens uniqueCities numAliens.toNat 0 ∅ draws

/-- All aliens of an alien map, entry after entry. -/
def allAliens (m : AlienMap) : List Int :=
  (m.entries.map (fun e => e.2)).flatten

/-- Every key of the alien map holds a non-empty list. -/
def NonEmptyEntries (m : AlienMap) : Prop :=
  ∀ k l, m.lookup k = some l → l ≠ []

/-- The ids `0 .. n - 1`. -/
def idsBelow (n : Nat) : List Int :=
  (List.range n).map Int.ofNat

/-! ## `destroyCity` (lines 172-196) -/

/-- Lines 184-191, the loop `for i, n := range invasion.cities[neighbor]`.
The range expression is evaluated once, so the loop runs over the indices below
the length the slice had on entry (`todo` of them remain, `i` is the next) and
reads `n` from the backing array `arr`; `len` is the current length of
`invasion.cities[neighbor]`, which shares that backing array.  On a hit the
element at `i` is overwritten by the last one of the current slice and the slice
is shortened by one; indexing the current slice at `i ≥ len` panics. -/
def removeLoop (city : Str) : Nat → Nat → List Str → Nat → Except GoError (List Str × Nat)
  | 0, _, arr, len => .ok (arr, len)
  | todo + 1, i, arr, len =>
    if strContains (arr.getD i []) city then
      if i < len then
        removeLoop city todo (i + 1) (arr.set i (arr.getD (len - 1) [])) (len - 1)
      else .error .panic
    else removeLoop city todo (i + 1) arr len

/-- Lines 182-192, the loop `for _, neighbor := range invasion.cities[city]`.
`own` is the backing array of the slice `invasion.cities[city]` as it was on
entry: the loop reads its elements from there (`todo` remain, `j` is the next),
and sees what the inner loop wrote into it when a neighbour is `city` itself.
A neighbour that is not a key of the map has the nil slice: no iteration. -/
def neighborLoop (city : Str) : Nat → Nat → List Str → CityMap →
    Except GoError (List Str × CityMap)
  | 0, _, own, cities => .ok (own, cities)
  | todo + 1, j, own, cities =>
    let neighbor := stripLabel (own.getD j [])
    match cities.lookup neighbor with
    | none => neighborLoop city todo (j + 1) own cities
    | some cur =>
      match removeLoop city cur.length 0 (if neighbor = city then own else cur) cur.length with
      | .error e => .error e
      | .ok (arr, len) =>
        neighborLoop city todo (j + 1) (if neighbor = city then arr else own)
          (cities.insert neighbor (arr.take len))

/-- The method `destroyCity`.  Line 179 indexes `invasion.aliens[city]` at 0 and 1
and panics when the city holds fewer than two aliens.  The line it prints is
returned as an `Event` by the calls that return. -/
def destroyCity (inv : Invasion) (city : Str) : Except GoError (Invasion × Event) :=
  match mapGet inv.aliens city with
  | a0 :: a1 :: _ =>
    match neighborLoop city (mapGet inv.cities city).length 0 (mapGet inv.cities city)
        inv.cities with
    | .error e => .error e
    | .ok (_, cities) => .ok (⟨cities.erase city, inv.aliens.erase city⟩, ⟨city, a0, a1⟩)
  | _ => .error .panic

/-- No edge in the list that `m` holds for `k` contains `city` as a substring
(the test `strings.Contains(n, city)` of line 187 fails on every edge of `k`). -/
def CleanAt (city : Str) (m : CityMap) (k : Str) : Prop :=
  ∀ t ∈ mapGet m k, strContains t city = false

/-- At most one edge of the list contains `city` as a substring. -/
def AtMostOneHit (city : Str) (l : List Str) : Prop :=
  l.countP (fun t => strContains t city) ≤ 1

instance (city : Str) (l : List Str) : Decidable (AtMostOneHit city l) :=
  inferInstanceAs (Decidable (l.countP (fun t => strContains t city) ≤ 1))

/-! ## `runSimulation` (lines 200-245) -/

/-- Lines 205-209, the first pass.  The body deletes at most the key it is visiting,
so the range yields every key of `invasion.aliens` once; `order` is the order in
which it yields them. -/
def destructionPhase (inv : Invasion) : List Str → Except GoError (Invasion × List Event)
  | [] => .ok (inv, [])
  | city :: rest =>
    if 2 ≤ (mapGet inv.aliens city).length then
      match destroyCity inv city with
      | .error e => .error e
      | .ok (inv1, ev) =>
        match destructionPhase inv1 rest with
        | .error e => .error e
        | .ok (inv2, evs) => .ok (inv2, ev :: evs)
    else destructionPhase inv rest

/-- Lines 215-240, the body of the second pass for the key `city`, with `r` the
value drawn by `rand.Intn`. -/
def moveStep (inv : Invasion) (city : Str) (r : Nat) : Except GoError Invasion :=
  if (mapGet inv.cities city).length = 0 then .ok inv
  else
    let newCity := (mapGet inv.cities city).getD (r % (mapGet inv.cities city).length) []
    let filtered := stripLabel newCity
    match mapGet inv.aliens city with
    | [] => .error .panic
    | a :: _ =>
      let aliens1 := inv.aliens.insert filtered (mapGet inv.aliens filtered ++ [a])
      let aliens2 := aliens1.insert city (mapGet aliens1 city).tail
      .ok ⟨inv.cities, if (mapGet aliens2 city).length = 0 then aliens2.erase city else aliens2⟩

/-- Lines 212-241, the second pass, along the sequence of keys the range yields,
each with the random draw of its iteration. -/
def movePhase (inv : Invasion) : List (Str × Nat) → Except GoError Invasion
  | [] => .ok inv
  | (city, r) :: rest =>
    match moveStep inv city r with
    | .error e => .error e
    | .ok inv1 => movePhase inv1 rest

/-- The choices the program does not determine in one turn: the order in which
the first range yields the keys, and the keys yielded by the second range with
the random draws. -/
structure TurnChoice where
  order : List Str
  moves : List (Str × Nat)

/-- One iteration of the loop of `runSimulation`: both passes. -/
def turn (inv : Invasion) (ch : TurnChoice) : Except GoError (Invasion × List Event) :=
  match destructionPhase inv ch.order with
  | .error e => .error e
  | .ok (inv1, evs) =>
    match movePhase inv1 ch.moves with
    | .error e => .error e
    | .ok inv2 => .ok (inv2, evs)

/-- What a run of `runSimulation` leaves: the final state, the value of `turns`,
and the lines printed. -/
structure SimResult where
  state : Invasion
  turns : Nat
  events : List Event

/-- The loop of `runSimulation` (line 202).  The first argument is `10000 - turns`:
it is `0` exactly when the test `turns < 10000` fails. -/
def simLoop (choice : Nat → TurnChoice) : Nat → Nat → Invasion → List Event →
    Except GoError SimResult
  | 0, turns, inv, out => .ok ⟨inv, turns, out⟩
  | left + 1, turns, inv, out =>
    if mapLen inv.aliens ≠ 0 then
      match turn inv (choice turns) with
      | .error e => .error e
      | .ok (inv1, evs) => simLoop choice left (turns + 1) inv1 (out ++ evs)
    else .ok ⟨inv, turns, out⟩

/-- The method `runSimulation`; `choice t` holds the choices of turn `t`. -/
def runSimulation (inv : Invasion) (choice : Nat → TurnChoice) : Except GoError SimResult :=
  simLoop choice 10000 0 inv []

/-- The state after the first `n` turns of a run from `inv`, when each of them
completes: `turn` iterated with the choices of turns `0 .. n - 1`. -/
def afterTurns (choice : Nat → TurnChoice) : Nat → Invasion → Except GoError Invasion
  | 0, inv => .ok inv
  | n + 1, inv =>
    match afterTurns choice n inv with
    | .error e => .error e
    | .ok s =>
      match turn s (choice n) with
      | .error e => .error e
      | .ok (s1, _) => .ok s1

/-- Every key of the alien map holds exactly one alien and names a city whose edge
list is empty or missing. -/
def DeadEnds (inv : Invasion) : Prop :=
  ∀ e ∈ inv.aliens.entries, e.2.length = 1 ∧ mapGet inv.cities e.1 = []

instance (inv : Invasion) : Decidable (DeadEnds inv) :=
  inferInstanceAs (Decidable (∀ e ∈ inv.aliens.entries,
    e.2.length = 1 ∧ mapGet inv.cities e.1 = []))

/-! ## Which choices a Go execution can make -/

/-- The first range may yield the keys of the alien map in any order. -/
def ValidOrder (inv : Invasion) (order : List Str) : Prop :=
  order.Perm inv.aliens.keys

instance (inv : Invasion) (order : List Str) : Decidable (ValidOrder inv order) :=
  inferInstanceAs (Decidable (order.Perm inv.aliens.keys))

/-- The second range.  `pending` are the keys present when the loop started and
not yet yielded: each of them is yielded.  `fresh` are the keys created by the
loop body since then and not yet yielded: each may be yielded or skipped.  The
body never deletes a key other than the one being visited. -/
def validMoves (inv : Invasion) (pending fresh : List Str) : List (Str × Nat) → Bool
  | [] => pending.isEmpty
  | (city, r) :: rest =>
    (decide (city ∈ pending) || decide (city ∈ fresh)) &&
      match moveStep inv city r with
      | .error _ => true
      | .ok inv1 =>
        validMoves inv1 (pending.erase city)
          ((fresh.erase city) ++ inv1.aliens.keys.filter (fun k => decide (k ∉ inv.aliens.keys)))
          rest

/-- Checks the choices of one turn: the first range yields the keys of the alien
map in some order and, when the first pass completes, the second range yields
keys as `validMoves` allows, starting with all keys pending. -/
def validTurn (inv : Invasion) (ch : TurnChoice) : Bool :=
  decide (ValidOrder inv ch.order) &&
    match destructionPhase inv ch.order with
    | .error _ => true
    | .ok (inv1, _) => validMoves inv1 inv1.aliens.keys [] ch.moves

/-- The choices of one turn are ones a Go execution can make from `inv`. -/
def ValidTurn (inv : Invasion) (ch : TurnChoice) : Prop :=
  validTurn inv ch = true

instance (inv : Invasion) (ch : TurnChoice) : Decidable (ValidTurn inv ch) :=
  inferInstanceAs (Decidable (validTurn inv ch = true))

/-! ## The test loop of `TestDestroyCity` and literal states -/

/-- main_test.go, lines 125-127: the loop of `TestDestroyCity` that calls
`destroyCity` on every key the range yields. -/
def destroyEach (inv : Invasion) : List Str → Except GoError Invasion
  | [] => .ok inv
  | city :: rest =>
    match destroyCity inv city with
    | .error e => .error e
    | .ok (inv1, _) => destroyEach inv1 rest

/-- Builds a city map from literal lines `(name, edges)`. -/
def citiesOf (l : List (String × List String)) : CityMap :=
  l.foldr (fun p m => m.insert p.1.toList (p.2.map String.toList)) ∅

/-- Builds an alien map from literal entries `(name, ids)`. -/
def aliensOf (l : List (String × List Int)) : AlienMap :=
  l.foldr (fun p m => m.insert p.1.toList p.2) ∅

/-- The two-city map `A east=B`, `B west=A` with aliens 0 and 1 in `A`. -/
def twoCities : Invasion :=
  ⟨citiesOf [("A", ["east=B"]), ("B", ["west=A"])], aliensOf [("A", [0, 1])]⟩

/-- An asymmetric map: `B` lists `A`, `A` lists nothing; aliens 0 and 1 in `A`. -/
def oneWay : Invasion :=
  ⟨citiesOf [("A", []), ("B", ["west=A"])], aliensOf [("A", [0, 1])]⟩

/-- A symmetric map in which the name `Foo` is part of the name `Foobar`:
`Foo east=Bar`, `Bar west=Foo north=Foobar south=Qux`, `Foobar south=Bar`,
`Qux north=Bar`; aliens 0 and 1 in `Foo`. -/
def fooBar : Invasion :=
  ⟨citiesOf [("Foo", ["east=Bar"]), ("Bar", ["west=Foo", "north=Foobar", "south=Qux"]),
      ("Foobar", ["south=Bar"]), ("Qux", ["north=Bar"])],
    aliensOf [("Foo", [0, 1])]⟩

/-- The lines of the input file from which `fooBar` is built. -/
def fooBarLines : List Str :=
  ["Foo east=Bar".toList, "Bar west=Foo north=Foobar south=Qux".toList,
    "Foobar south=Bar".toList, "Qux north=Bar".toList]

/-- The two-city map with two aliens in each city, as `TestDestroyCity` builds it. -/
def everyCityTwo : Invasion :=
  ⟨citiesOf [("A", ["east=B"]), ("B", ["west=A"])], aliensOf [("A", [0, 1]), ("B", [2, 3])]⟩

/-- Cities `A`, `B`, `C` each list `D`, which lists nothing; one alien in each of
`A`, `B`, `C`. -/
def threeToOne : Invasion :=
  ⟨citiesOf [("A", ["east=D"]), ("B", ["west=D"]), ("C", ["north=D"]), ("D", [])],
    aliensOf [("A", [0]), ("B", [1]), ("C", [2])]⟩

/-- Number of edges a city map holds. -/
def edgeCount (m : CityMap) : Nat :=
  (m.entries.map (fun e => e.2.length)).sum

/-- Number of neighbour tokens on the lines of an input. -/
def tokenCount (lines : List Str) : Nat :=
  (lines.map (fun line => (splitOnSpace line).tail.length)).sum

/-- Number of neighbour tokens whose target is the city of their own line. -/
def selfLoopCount (lines : List Str) : Nat :=
  (lines.map (fun line =>
    ((splitOnSpace line).tail.filter
      (fun tok => decide (stripLabel tok = (splitOnSpace line).headD []))).length)).sum

/-- A well-formed input line: a non-empty city name and tokens `direction=target`
with non-empty direction and target, separated by single spaces. -/
def wellFormedLine (line : Str) : Bool :=
  match splitOnSpace line with
  | [] => false
  | name :: tokens =>
    !name.isEmpty && tokens.all (fun tok =>
      match afterLabel tok with
      | none => false
      | some target => !target.isEmpty && decide (tok.length > target.length + 1) &&
          decide ('=' ∉ target))

/-- A well-formed input: well-formed lines with distinct city names. -/
def wellFormedInput (lines : List Str) : Bool :=
  lines.all wellFormedLine && decide ((lines.map (fun line => (splitOnSpace line).headD [])).Nodup)

/-- The input `Foo north=Foobar`, `Foobar south=Foo`. -/
def fooLines : List Str :=
  ["Foo north=Foobar".toList, "Foobar south=Foo".toList]

/-- City `A` lists itself first, then `BA`, `D` and `E`; `BA` lists `A`. -/
def selfEdge : Invasion :=
  ⟨citiesOf [("A", ["loop=A", "east=BA", "west=D", "north=E"]), ("BA", ["south=A"]),
      ("D", []), ("E", [])],
    aliensOf [("A", [0, 1])]⟩

/-- Three cities in a row: `A east=B`, `B west=A east=C`, `C west=B`; aliens 0 and
1 in `A`, alien 2 in `C`. -/
def threeCities : Invasion :=
  ⟨citiesOf [("A", ["east=B"]), ("B", ["west=A", "east=C"]), ("C", ["west=B"])],
    aliensOf [("A", [0, 1]), ("C", [2])]⟩

/-- The state `threeCities` after `A` was destroyed. -/
def threeCitiesAfter : Invasion :=
  ⟨citiesOf [("B", ["east=C"]), ("C", ["west=B"])], aliensOf [("C", [2])]⟩

/-- What holds of the second pass on `threeToOne` between two iterations: the city
map is untouched, the keys still to be yielded are distinct cities among `A`,
`B`, `C` holding one alien each, a key created by the loop can only be `D`, and
the aliens that have left their city are in `D`. -/
def GatherInv (inv : Invasion) (pending fresh : List Str) : Prop :=
  inv.cities = threeToOne.cities ∧ pending.Nodup ∧
  (∀ k ∈ pending, k ∈ ["A".toList, "B".toList, "C".toList] ∧
    (mapGet inv.aliens k).length = 1) ∧
  (∀ k ∈ fresh, k = "D".toList) ∧
  (mapGet inv.aliens "D".toList).length + pending.length = 3

/-- The map `populateCities` builds from `A east=B` and `B`: city `B` has no edge. -/
def deadEndCities : CityMap :=
  citiesOf [("A", ["east=B"]), ("B", [])]

/-- A symmetric map in which `Bar` lists both `Foo` and `Foobar`:
`Foo east=Bar`, `Bar west=Foo north=Foobar`, `Foobar south=Bar`; aliens 0 and 1
in `Foo`. -/
def fooPanic : Invasion :=
  ⟨citiesOf [("Foo", ["east=Bar"]), ("Bar", ["west=Foo", "north=Foobar"]),
      ("Foobar", ["south=Bar"])],
    aliensOf [("Foo", [0, 1])]⟩

/-- The lines of the input file from which the map of `fooPanic` is built. -/
def fooPanicLines : List Str :=
  ["Foo east=Bar".toList, "Bar west=Foo north=Foobar".toList, "Foobar south=Bar".toList]

/-- Two roads between `A` and `B`: `A east=B north=B`, `B west=A south=A`; aliens 0
and 1 in `A`. -/
def twoRoads : Invasion :=
  ⟨citiesOf [("A", ["east=B", "north=B"]), ("B", ["west=A", "south=A"])],
    aliensOf [("A", [0, 1])]⟩

/-- One alien in `B`, which has no edge; `A` is empty. -/
def deadEnd : Invasion :=
  ⟨deadEndCities, aliensOf [("B", [0])]⟩

/-- A map with one city and no alien. -/
def noAliens : Invasion :=
  ⟨citiesOf [("A", [])], ∅⟩

/-- The lines of the input file from which the map of `twoRoads` is built. -/
def twoRoadsLines : List Str :=
  ["A east=B north=B".toList, "B west=A south=A".toList]

/-- The map of `twoRoads` with two aliens in each city, as `TestDestroyCity` builds
its state. -/
def twoRoadsFull : Invasion :=
  ⟨twoRoads.cities, aliensOf [("A", [0, 1]), ("B", [2, 3])]⟩

/-! ## Maps, slices and strings -/

/-- Reading a key just assigned gives the assigned slice. -/
theorem mapGet_insert_self {V : Type} (m : AList (fun _ : Str => List V)) (k : Str) (v : List V) :
    mapGet (m.insert k v) k = v := by
  simp [mapGet, AList.lookup_insert]

/-- Assigning one key does not change what another key holds. -/
theorem mapGet_insert_ne {V : Type} (m : AList (fun _ : Str => List V)) {k k' : Str} (v : List V)
    (h : k ≠ k') : mapGet (m.insert k' v) k = mapGet m k := by
  simp [mapGet, AList.lookup_insert_ne h]

/-- A deleted key reads as the nil slice. -/
theorem mapGet_erase_self {V : Type} (m : AList (fun _ : Str => List V)) (k : Str) :
    mapGet (m.erase k) k = [] := by
  simp [mapGet, AList.lookup_erase]

/-- Deleting one key does not change what another key holds. -/
theorem mapGet_erase_ne {V : Type} (m : AList (fun _ : Str => List V)) {k k' : Str}
    (h : k ≠ k') : mapGet (m.erase k') k = mapGet m k := by
  simp [mapGet, AList.lookup_erase_ne h]

/-- A key that is present reads as its slice. -/
theorem mapGet_of_lookup {V : Type} {m : AList (fun _ : Str => List V)} {k : Str} {v : List V}
    (h : m.lookup k = some v) : mapGet m k = v := by
  simp [mapGet, h]

/-- A key that is absent reads as the nil slice. -/
theorem mapGet_of_not_mem {V : Type} {m : AList (fun _ : Str => List V)} {k : Str}
    (h : k ∉ m) : mapGet m k = [] := by
  simp [mapGet, AList.lookup_eq_none.mpr h]

/-- Reading the index just written. -/
theorem getD_set_self {α : Type} (l : List α) (i : Nat) (a d : α) (h : i < l.length) :
    (l.set i a).getD i d = a := by
  simp [List.getD_eq_getElem?_getD, List.getElem?_set, h]

/-- Writing one index does not change another. -/
theorem getD_set_ne {α : Type} (l : List α) {i j : Nat} (a d : α) (h : i ≠ j) :
    (l.set i a).getD j d = l.getD j d := by
  simp [List.getD_eq_getElem?_getD, List.getElem?_set, h]

/-- The target of a token is a suffix of the token. -/
theorem stripLabel_suffix (t : Str) : stripLabel t <:+ t := by
  unfold stripLabel
  induction t with
  | nil => simp [afterLabel]
  | cons c cs ih =>
    simp only [afterLabel]
    split_ifs with h1 h2
    · simp
    · simp
    · cases h : afterLabel cs with
      | none => simp
      | some r =>
        rw [h] at ih
        simp only [Option.getD_some] at ih ⊢
        exact ih.trans (List.suffix_cons c cs)

/-- A token whose target is `c` contains `c`. -/
theorem contains_of_target {t c : Str} (h : stripLabel t = c) : strContains t c = true := by
  subst h
  simp [strContains, (stripLabel_suffix t).isInfix]

/-! ## `destroyCity` -/

/-- If an index the inner loop has still to visit lies at or beyond the current length and
holds a hit, the loop panics. -/
theorem removeLoop_panics (city : Str) : ∀ (todo i : Nat) (arr : List Str) (len p : Nat),
    i ≤ p → p < i + todo → len ≤ p → strContains (arr.getD p []) city = true →
    removeLoop city todo i arr len = .error .panic := by
  intro todo
  induction todo with
  | zero => intro i arr len p h1 h2; omega
  | succ n ih =>
    intro i arr len p h1 h2 h3 h4
    unfold removeLoop
    by_cases hit : strContains (arr.getD i []) city = true
    · rw [if_pos hit]
      by_cases hlt : i < len
      · rw [if_pos hlt]
        have hne : i ≠ p := by omega
        exact ih (i + 1) _ (len - 1) p (by omega) (by omega) (by omega)
          (by rw [getD_set_ne _ _ _ hne]; exact h4)
      · rw [if_neg hlt]
    · rw [if_neg hit]
      have hne : i ≠ p := by
        rintro rfl
        exact hit h4
      exact ih (i + 1) arr len p (by omega) (by omega) h3 h4

/-- When the inner loop returns, the slice it leaves holds no hit: the array keeps its
length, the slice did not grow. -/
theorem removeLoop_clean (city : Str) : ∀ (todo i : Nat) (arr : List Str) (len : Nat)
    (arr' : List Str) (len' : Nat),
    i + todo ≤ arr.length → len ≤ i + todo →
    (∀ k, k < i → k < len → strContains (arr.getD k []) city = false) →
    removeLoop city todo i arr len = .ok (arr', len') →
    arr'.length = arr.length ∧ len' ≤ len ∧
      ∀ k, k < len' → strContains (arr'.getD k []) city = false := by
  intro todo
  induction todo with
  | zero =>
    intro i arr len arr' len' _ h2 h3 h
    simp only [removeLoop, Except.ok.injEq, Prod.mk.injEq] at h
    obtain ⟨rfl, rfl⟩ := h
    exact ⟨rfl, le_refl _, fun k hk => h3 k (by omega) hk⟩
  | succ n ih =>
    intro i arr len arr' len' h1 h2 h3 h
    unfold removeLoop at h
    by_cases hit : strContains (arr.getD i []) city = true
    · rw [if_pos hit] at h
      by_cases hlt : i < len
      · rw [if_pos hlt] at h
        have hlast : i < len - 1 → strContains (arr.getD (len - 1) []) city = false := by
          intro hi
          by_contra hc
          have hc' : strContains (arr.getD (len - 1) []) city = true := by simpa using hc
          have hne : i ≠ len - 1 := by omega
          have := removeLoop_panics city n (i + 1) (arr.set i (arr.getD (len - 1) [])) (len - 1)
            (len - 1) (by omega) (by omega) (le_refl _)
            (by rw [getD_set_ne _ _ _ hne]; exact hc')
          rw [this] at h
          cases h
        obtain ⟨e1, e2, e3⟩ := ih (i + 1) _ (len - 1) arr' len'
          (by rw [List.length_set]; omega) (by omega)
          (by
            intro k hk hk'
            by_cases hki : k = i
            · subst hki
              rw [getD_set_self _ _ _ _ (by omega)]
              exact hlast hk'
            · rw [getD_set_ne _ _ _ (Ne.symm hki)]
              exact h3 k (by omega) (by omega)) h
        exact ⟨by rw [e1, List.length_set], by omega, e3⟩
      · rw [if_neg hlt] at h
        cases h
    · rw [if_neg hit] at h
      exact ih (i + 1) arr len arr' len' (by omega) (by omega)
        (by
          intro k hk hk'
          by_cases hki : k = i
          · subst hki; simpa using hit
          · exact h3 k (by omega) hk') h

/-- The slice the inner loop leaves, when it returns, holds no edge containing `city`. -/
theorem removeLoop_take_clean (city : Str) (cur arr : List Str) (len : Nat)
    (h : removeLoop city cur.length 0 cur cur.length = .ok (arr, len)) :
    ∀ t ∈ arr.take len, strContains t city = false := by
  obtain ⟨e1, e2, e3⟩ := removeLoop_clean city cur.length 0 cur cur.length arr len
    (by omega) (by omega) (fun k hk => by omega) h
  intro t ht
  obtain ⟨k, hk, rfl⟩ := List.getElem_of_mem ht
  rw [List.length_take] at hk
  have := e3 k (by omega)
  rw [List.getD_eq_getElem _ _ (by omega)] at this
  rw [List.getElem_take]
  exact this

/-- The outer loop never adds or removes a key of the city map. -/
theorem neighborLoop_keys (city : Str) : ∀ (todo j : Nat) (own : List Str) (cities : CityMap)
    (own' : List Str) (cities' : CityMap),
    neighborLoop city todo j own cities = .ok (own', cities') →
    ∀ k, k ∈ cities' ↔ k ∈ cities := by
  intro todo
  induction todo with
  | zero =>
    intro j own cities own' cities' h k
    simp only [neighborLoop, Except.ok.injEq, Prod.mk.injEq] at h
    rw [h.2]
  | succ n ih =>
    intro j own cities own' cities' h k
    simp only [neighborLoop] at h
    split at h
    · exact ih _ _ _ _ _ h k
    · rename_i cur hcur
      split at h
      · cases h
      · rename_i arr len hrl
        rw [ih _ _ _ _ _ h k, AList.mem_insert]
        constructor
        · rintro (rfl | hk)
          · exact AList.lookup_isSome.mp (by rw [hcur]; rfl)
          · exact hk
        · exact Or.inr

/-- When `city` lists no edge to itself and the outer loop returns, its own array is
untouched, lists without a hit stay so, and every neighbour visited is left without a hit.
-/
theorem neighborLoop_clean (city : Str) : ∀ (todo j : Nat) (own : List Str) (cities : CityMap)
    (own' : List Str) (cities' : CityMap),
    (∀ i, j ≤ i → i < j + todo → stripLabel (own.getD i []) ≠ city) →
    neighborLoop city todo j own cities = .ok (own', cities') →
    own' = own ∧ (∀ k, CleanAt city cities k → CleanAt city cities' k) ∧
      ∀ i, j ≤ i → i < j + todo → CleanAt city cities' (stripLabel (own.getD i [])) := by
  intro todo
  induction todo with
  | zero =>
    intro j own cities own' cities' _ h
    simp only [neighborLoop, Except.ok.injEq, Prod.mk.injEq] at h
    obtain ⟨rfl, rfl⟩ := h
    exact ⟨rfl, fun k hk => hk, fun i h1 h2 => by omega⟩
  | succ n ih =>
    intro j own cities own' cities' hself h
    have hj : stripLabel (own.getD j []) ≠ city := hself j (le_refl _) (by omega)
    simp only [neighborLoop] at h
    split at h
    · rename_i hnone
      obtain ⟨e1, e2, e3⟩ := ih (j + 1) own cities own' cities'
        (fun i h1 h2 => hself i (by omega) (by omega)) h
      refine ⟨e1, e2, fun i h1 h2 => ?_⟩
      by_cases hij : i = j
      · subst hij
        apply e2
        intro t ht
        rw [mapGet, hnone] at ht
        simp at ht
      · exact e3 i (by omega) (by omega)
    · rename_i cur hcur
      rw [if_neg hj] at h
      split at h
      · cases h
      · rename_i arr len hrl
        rw [if_neg hj] at h
        obtain ⟨e1, e2, e3⟩ := ih (j + 1) own _ own' cities'
          (fun i h1 h2 => hself i (by omega) (by omega)) h
        have hnew : CleanAt city (cities.insert (stripLabel (own.getD j [])) (arr.take len))
            (stripLabel (own.getD j [])) := by
          intro t ht
          rw [mapGet_insert_self] at ht
          exact removeLoop_take_clean city cur arr len hrl t ht
        refine ⟨e1, fun k hk => e2 k ?_, fun i h1 h2 => ?_⟩
        · by_cases hkn : k = stripLabel (own.getD j [])
          · subst hkn; exact hnew
          · intro t ht
            rw [mapGet_insert_ne _ _ hkn] at ht
            exact hk t ht
        · by_cases hij : i = j
          · subst hij
            exact e2 _ hnew
          · exact e3 i (by omega) (by omega)

/-- A map without keys is the empty map. -/
theorem alist_eq_empty {V : Type} (m : AList (fun _ : Str => List V)) (h : ∀ k, k ∉ m) :
    m = ∅ := by
  apply AList.ext
  rw [AList.empty_entries, List.eq_nil_iff_forall_not_mem]
  intro e he
  exact h e.1 (AList.mem_keys.mpr (List.mem_keys_of_mem he))

/-- What a call of `destroyCity` that returns has done. -/
theorem destroyCity_spec {inv inv' : Invasion} {ev : Event} {c : Str}
    (h : destroyCity inv c = .ok (inv', ev)) :
    ∃ own cities, neighborLoop c (mapGet inv.cities c).length 0 (mapGet inv.cities c)
        inv.cities = .ok (own, cities) ∧
      inv' = ⟨cities.erase c, inv.aliens.erase c⟩ ∧
      ∃ rest, mapGet inv.aliens c = ev.first :: ev.second :: rest ∧ ev.city = c := by
  unfold destroyCity at h
  split at h
  · rename_i a0 a1 rest hal
    split at h
    · cases h
    · rename_i own cities hnl
      simp only [Except.ok.injEq, Prod.mk.injEq] at h
      obtain ⟨rfl, rfl⟩ := h
      exact ⟨own, cities, hnl, rfl, rest, hal, rfl⟩
  · cases h

/-- The cities left by `destroyCity` are the others. -/
theorem destroyCity_mem_cities {inv inv' : Invasion} {ev : Event} {c : Str}
    (h : destroyCity inv c = .ok (inv', ev)) (k : Str) :
    k ∈ inv'.cities ↔ k ≠ c ∧ k ∈ inv.cities := by
  obtain ⟨own, cities, hnl, rfl, -⟩ := destroyCity_spec h
  rw [AList.mem_erase, neighborLoop_keys c _ _ _ _ _ _ hnl k]

/-- The alien map left by `destroyCity`. -/
theorem destroyCity_aliens {inv inv' : Invasion} {ev : Event} {c : Str}
    (h : destroyCity inv c = .ok (inv', ev)) : inv'.aliens = inv.aliens.erase c := by
  obtain ⟨own, cities, hnl, rfl, -⟩ := destroyCity_spec h
  rfl

/-- The keys left by the test loop are those it did not visit. -/
theorem destroyEach_mem {order : List Str} : ∀ {inv final : Invasion},
    destroyEach inv order = .ok final →
    ∀ k, (k ∈ final.cities ↔ k ∈ inv.cities ∧ k ∉ order) ∧
      (k ∈ final.aliens ↔ k ∈ inv.aliens ∧ k ∉ order) := by
  induction order with
  | nil =>
    intro inv final h k
    simp only [destroyEach, Except.ok.injEq] at h
    subst h
    simp
  | cons c rest ih =>
    intro inv final h k
    simp only [destroyEach] at h
    split at h
    · cases h
    · rename_i inv1 ev hd
      obtain ⟨e1, e2⟩ := ih h k
      rw [e1, e2, destroyCity_mem_cities hd, destroyCity_aliens hd, AList.mem_erase]
      simp only [List.mem_cons, not_or]
      tauto

/-- When `city` lists no edge to itself, the outer loop leaves the list of every city it
does not visit as it was. -/
theorem neighborLoop_frame (city : Str) : ∀ (todo j : Nat) (own : List Str) (cities : CityMap)
    (own' : List Str) (cities' : CityMap),
    (∀ i, j ≤ i → i < j + todo → stripLabel (own.getD i []) ≠ city) →
    neighborLoop city todo j own cities = .ok (own', cities') →
    ∀ k, (∀ i, j ≤ i → i < j + todo → stripLabel (own.getD i []) ≠ k) →
      cities'.lookup k = cities.lookup k := by
  intro todo
  induction todo with
  | zero =>
    intro j own cities own' cities' _ h k _
    simp only [neighborLoop, Except.ok.injEq, Prod.mk.injEq] at h
    rw [h.2]
  | succ n ih =>
    intro j own cities own' cities' hself h k hk
    have hj : stripLabel (own.getD j []) ≠ city := hself j (le_refl _) (by omega)
    have hkj : stripLabel (own.getD j []) ≠ k := hk j (le_refl _) (by omega)
    simp only [neighborLoop] at h
    split at h
    · exact ih (j + 1) own cities own' cities'
        (fun i h1 h2 => hself i (by omega) (by omega)) h k
        (fun i h1 h2 => hk i (by omega) (by omega))
    · rw [if_neg hj] at h
      split at h
      · cases h
      · rw [if_neg hj] at h
        rw [ih (j + 1) own _ own' cities'
          (fun i h1 h2 => hself i (by omega) (by omega)) h k
          (fun i h1 h2 => hk i (by omega) (by omega))]
        exact AList.lookup_insert_ne (Ne.symm hkj)

/-- C1 (amended). Let `destroyCity inv c` complete (so `c` holds at least two aliens),
where `c` lists no edge to itself.  Then no city that `c` lists as a neighbour
keeps an edge whose target is `c`; and a city other than `c` that `c` does not
list keeps its edge list as it was, edges to `c` included. -/
theorem destroyCity_clears_listed_neighbors (inv inv' : Invasion) (ev : Event) (c : Str)
    (hself : ∀ t ∈ mapGet inv.cities c, stripLabel t ≠ c)
    (h : destroyCity inv c = .ok (inv', ev)) :
    (∀ t ∈ mapGet inv.cities c, ∀ e ∈ mapGet inv'.cities (stripLabel t),
      stripLabel e ≠ c) ∧
    (∀ k, k ≠ c → (∀ t ∈ mapGet inv.cities c, stripLabel t ≠ k) →
      inv'.cities.lookup k = inv.cities.lookup k) := by
  obtain ⟨own, cities, hnl, rfl, -⟩ := destroyCity_spec h
  have hs : ∀ i, 0 ≤ i → i < 0 + (mapGet inv.cities c).length →
      stripLabel ((mapGet inv.cities c).getD i []) ≠ c := by
    intro i _ hi
    rw [List.getD_eq_getElem _ _ (by omega)]
    exact hself _ (List.getElem_mem _)
  obtain ⟨-, -, e3⟩ := neighborLoop_clean c _ 0 _ inv.cities own cities hs hnl
  constructor
  · intro t ht e he
    obtain ⟨i, hi, rfl⟩ := List.getElem_of_mem ht
    have hc := e3 i (Nat.zero_le _) (by omega)
    rw [List.getD_eq_getElem _ _ hi] at hc
    rw [mapGet_erase_ne _ (hself _ ht)] at he
    have hce := hc e he
    intro hst
    rw [contains_of_target hst] at hce
    cases hce
  · intro k hkc hk
    show (cities.erase c).lookup k = _
    rw [AList.lookup_erase_ne hkc]
    apply neighborLoop_frame c _ 0 _ inv.cities own cities hs hnl k
    intro i _ hi
    rw [List.getD_eq_getElem _ _ (by omega)]
    exact hk _ (List.getElem_mem _)

/-- Witness for C1 (amended): destroying `A` in `threeCities`. -/
theorem destroyCity_clears_listed_neighbors_witness :
    (∀ t ∈ mapGet threeCities.cities "A".toList, stripLabel t ≠ "A".toList) ∧
    destroyCity threeCities "A".toList = .ok (threeCitiesAfter, ⟨"A".toList, 0, 1⟩) ∧
    (∀ t ∈ mapGet threeCities.cities "A".toList,
      ∀ e ∈ mapGet threeCitiesAfter.cities (stripLabel t), stripLabel e ≠ "A".toList) ∧
    (∀ k, k ≠ "A".toList →
      (∀ t ∈ mapGet threeCities.cities "A".toList, stripLabel t ≠ k) →
      threeCitiesAfter.cities.lookup k = threeCities.cities.lookup k) :=
  ⟨by decide, rfl,
    destroyCity_clears_listed_neighbors threeCities threeCitiesAfter ⟨"A".toList, 0, 1⟩
      "A".toList (by decide) rfl⟩

/-- When `c` lists an edge to itself the outer loop reads a backing array that the
inner loop rewrites: here it never visits `BA`, which `A` lists, and `BA` keeps
its edge to `A`. -/
theorem destroyCity_self_edge_skips_neighbor :
    "east=BA".toList ∈ mapGet selfEdge.cities "A".toList ∧
    ∃ inv' ev, destroyCity selfEdge "A".toList = .ok (inv', ev) ∧
      mapGet inv'.cities "BA".toList = ["south=A".toList] :=
  ⟨by decide, ⟨citiesOf [("E", []), ("D", []), ("BA", ["south=A"])], ∅⟩, ⟨"A".toList, 0, 1⟩,
    rfl, by decide⟩

/-- C1 (counterexample). In `oneWay` city `B` lists `A` and `A` lists nothing:
`destroyCity` of `A`, which holds two aliens, completes and `B`, still in the map,
keeps its edge with target `A`. -/
theorem destroyCity_keeps_unlisted_reverse_edge :
    2 ≤ (mapGet oneWay.aliens "A".toList).length ∧
    ∃ inv' ev, destroyCity oneWay "A".toList = .ok (inv', ev) ∧
      "B".toList ∈ inv'.cities ∧
      ∃ e ∈ mapGet inv'.cities "B".toList, stripLabel e = "A".toList :=
  ⟨by decide, ⟨citiesOf [("B", ["west=A"])], ∅⟩, ⟨"A".toList, 0, 1⟩, rfl, by decide,
    "west=A".toList, by decide, by decide⟩

/-- The effect of the calls that return.  When `destroyCity inv c` completes (which
needs at least two aliens in `c`), `c` is a key of neither map, every other city
is still a key of the city map, and every other entry of the alien map is
unchanged.  Hence, from a state in which every city holds two aliens, the loop
of `TestDestroyCity`, when it completes, leaves both maps empty. -/
theorem destroyCity_removes_exactly_city :
    (∀ (inv inv' : Invasion) (ev : Event) (c : Str),
      destroyCity inv c = .ok (inv', ev) →
        2 ≤ (mapGet inv.aliens c).length ∧ c ∉ inv'.cities ∧ c ∉ inv'.aliens ∧
        (∀ k, k ≠ c → (k ∈ inv'.cities ↔ k ∈ inv.cities)) ∧
        (∀ k, k ≠ c → inv'.aliens.lookup k = inv.aliens.lookup k)) ∧
    (∀ (inv final : Invasion) (order : List Str),
      (∀ k, k ∈ inv.cities → (mapGet inv.aliens k).length = 2) →
      order.Perm inv.aliens.keys →
      destroyEach inv order = .ok final →
        final.cities = ∅ ∧ final.aliens = ∅) := by
  constructor
  · intro inv inv' ev c h
    have hal := destroyCity_aliens h
    obtain ⟨_, _, _, _, rest, hlen, _⟩ := destroyCity_spec h
    refine ⟨by rw [hlen]; simp, ?_, ?_, ?_, ?_⟩
    · rw [destroyCity_mem_cities h]
      exact fun hk => hk.1 rfl
    · rw [hal, AList.mem_erase]
      exact fun hk => hk.1 rfl
    · intro k hk
      rw [destroyCity_mem_cities h]
      exact ⟨fun hh => hh.2, fun hh => ⟨hk, hh⟩⟩
    · intro k hk
      rw [hal, AList.lookup_erase_ne hk]
  · intro inv final order htwo hperm h
    have hmem := destroyEach_mem h
    have hord : ∀ k, k ∈ inv.aliens → k ∈ order := fun k hk =>
      hperm.symm.subset (AList.mem_keys.mp hk)
    constructor
    · apply alist_eq_empty
      intro k hk
      obtain ⟨hc, hno⟩ := (hmem k).1.mp hk
      apply hno
      apply hord
      rw [← AList.lookup_isSome]
      have h2 := htwo k hc
      cases hl : inv.aliens.lookup k with
      | none => rw [mapGet, hl] at h2; simp at h2
      | some v => rfl
    · apply alist_eq_empty
      intro k hk
      obtain ⟨hc, hno⟩ := (hmem k).2.mp hk
      exact hno (hord k hc)

/-- The effect of `destroyCity` on `twoCities`, and of the test loop on `everyCityTwo`. -/
theorem destroyCity_removes_exactly_city_witness :
    (destroyCity twoCities "A".toList =
        .ok (⟨citiesOf [("B", [])], ∅⟩, ⟨"A".toList, 0, 1⟩) ∧
      "A".toList ∉ citiesOf [("B", [])] ∧ "B".toList ∈ citiesOf [("B", [])]) ∧
    ((∀ k, k ∈ everyCityTwo.cities → (mapGet everyCityTwo.aliens k).length = 2) ∧
      ["A".toList, "B".toList].Perm everyCityTwo.aliens.keys ∧
      destroyEach everyCityTwo ["A".toList, "B".toList] = .ok ⟨∅, ∅⟩ ∧
      (⟨∅, ∅⟩ : Invasion).cities = ∅ ∧ (⟨∅, ∅⟩ : Invasion).aliens = ∅) :=
  ⟨⟨rfl, (destroyCity_removes_exactly_city.1 twoCities ⟨citiesOf [("B", [])], ∅⟩
        ⟨"A".toList, 0, 1⟩ "A".toList rfl).2.1,
      ((destroyCity_removes_exactly_city.1 twoCities ⟨citiesOf [("B", [])], ∅⟩
        ⟨"A".toList, 0, 1⟩ "A".toList rfl).2.2.2.1 "B".toList (by decide)).mpr (by decide)⟩,
    by decide, by decide, rfl,
    destroyCity_removes_exactly_city.2 everyCityTwo ⟨∅, ∅⟩ ["A".toList, "B".toList]
      (by decide) (by decide) rfl⟩

/-- C2 (evaluation at the failing input). The map of `twoRoads` is the one
`populateCities` builds from its two lines, and `A` holds two aliens.  The call
`destroyCity` of `A` panics in the list of `B`, before the deletes of lines
194-195: it returns no state, and `A` is a key of both maps when the program
stops.  In `twoRoadsFull`, where every city holds two aliens, the loop of
`TestDestroyCity` panics at its first call, whichever key the range yields
first. -/
theorem destroyCity_panic_before_delete :
    (∃ m, populateCities twoRoadsLines = .ok m ∧
      ∀ k, m.lookup k = twoRoads.cities.lookup k) ∧
    2 ≤ (mapGet twoRoads.aliens "A".toList).length ∧
    destroyCity twoRoads "A".toList = .error .panic ∧
    (∀ inv' ev, destroyCity twoRoads "A".toList ≠ .ok (inv', ev)) ∧
    "A".toList ∈ twoRoads.cities ∧ "A".toList ∈ twoRoads.aliens ∧
    (∀ e ∈ twoRoadsFull.aliens.entries, e.2.length = 2) ∧
    (∀ k ∈ twoRoadsFull.cities.keys, k ∈ twoRoadsFull.aliens.keys) ∧
    destroyEach twoRoadsFull ["A".toList, "B".toList] = .error .panic ∧
    destroyEach twoRoadsFull ["B".toList, "A".toList] = .error .panic := by
  refine ⟨⟨_, rfl, fun _ => AList.perm_lookup (by decide)⟩, by decide, rfl, ?_, by decide,
    by decide, by decide, by decide, rfl, rfl⟩
  intro inv' ev h
  have hp : destroyCity twoRoads "A".toList = .error .panic := rfl
  rw [hp] at h
  cases h

/-- C3 (evaluation at the failing input). The map `fooBar` is the one `populateCities`
builds from its four lines.  Destroying `Foo` deletes from the list of `Bar` not
only `west=Foo` but also `north=Foobar`, whose target `Foobar` is a different
city: `Bar`, still in the map, is left with `south=Qux` alone. -/
theorem destroyCity_removes_edge_to_other_city :
    (∃ m, populateCities fooBarLines = .ok m ∧ ∀ k, m.lookup k = fooBar.cities.lookup k) ∧
    stripLabel "north=Foobar".toList = "Foobar".toList ∧
    "Foobar".toList ≠ "Foo".toList ∧
    "north=Foobar".toList ∈ mapGet fooBar.cities "Bar".toList ∧
    ∃ inv' ev, destroyCity fooBar "Foo".toList = .ok (inv', ev) ∧
      "Bar".toList ∈ inv'.cities ∧
      "north=Foobar".toList ∉ mapGet inv'.cities "Bar".toList ∧
      mapGet inv'.cities "Bar".toList = ["south=Qux".toList] := by
  refine ⟨⟨_, rfl, fun k => ?_⟩, by decide, by decide, by decide, ?_⟩
  · exact AList.perm_lookup (by decide)
  · exact ⟨⟨citiesOf [("Bar", ["south=Qux"]), ("Foobar", ["south=Bar"]), ("Qux", ["north=Bar"])],
      ∅⟩, ⟨"Foo".toList, 0, 1⟩, rfl, by decide, by decide, by decide⟩

/-! ## Counting aliens -/

/-- Removing a key lowers the sum of the lengths by the length of its entry. -/
theorem sum_kerase (k : Str) : ∀ l : List (Sigma (fun _ : Str => List Int)),
    ((l.kerase k).map (fun e => e.2.length)).sum + ((l.dlookup k).getD []).length =
      (l.map (fun e => e.2.length)).sum := by
  intro l
  induction l with
  | nil => simp
  | cons e l ih =>
    obtain ⟨a, b⟩ := e
    by_cases h : k = a
    · subst h
      have e1 : List.kerase k ((⟨k, b⟩ : Sigma (fun _ : Str => List Int)) :: l) = l :=
        List.kerase_cons_eq rfl
      have e2 : List.dlookup k ((⟨k, b⟩ : Sigma (fun _ : Str => List Int)) :: l) = some b :=
        List.dlookup_cons_eq l k b
      rw [e1, e2]
      simp [Nat.add_comm]
    · have e1 : List.kerase k ((⟨a, b⟩ : Sigma (fun _ : Str => List Int)) :: l) =
          ⟨a, b⟩ :: List.kerase k l := List.kerase_cons_ne h
      have e2 : List.dlookup k ((⟨a, b⟩ : Sigma (fun _ : Str => List Int)) :: l) =
          List.dlookup k l := List.dlookup_cons_ne l ⟨a, b⟩ h
      rw [e1, e2]
      simp only [List.map_cons, List.sum_cons]
      omega

/-- Deleting a key removes the aliens of its entry from the count. -/
theorem alienCount_erase (m : AlienMap) (k : Str) :
    alienCount (m.erase k) + (mapGet m k).length = alienCount m :=
  sum_kerase k m.entries

/-- Assigning a key replaces the aliens of its entry in the count. -/
theorem alienCount_insert (m : AlienMap) (k : Str) (v : List Int) :
    alienCount (m.insert k v) = v.length + alienCount (m.erase k) := by
  simp [alienCount, AList.insert_entries, AList.erase]

/-- A move step keeps the number of aliens. -/
theorem moveStep_alienCount {inv inv' : Invasion} {city : Str} {r : Nat}
    (h : moveStep inv city r = .ok inv') : alienCount inv'.aliens = alienCount inv.aliens := by
  unfold moveStep at h
  split_ifs at h with h0
  · simp only [Except.ok.injEq] at h
    rw [← h]
  · simp only at h
    split at h
    · cases h
    · rename_i a rest hal
      simp only [Except.ok.injEq] at h
      subst h
      simp only
      generalize hf : stripLabel ((mapGet inv.cities city).getD
        (r % (mapGet inv.cities city).length) []) = f
      have h1 : alienCount (inv.aliens.insert f (mapGet inv.aliens f ++ [a])) =
          alienCount inv.aliens + 1 := by
        rw [alienCount_insert, ← alienCount_erase inv.aliens f, List.length_append]
        simp
        omega
      have hpos : 0 < (mapGet (inv.aliens.insert f (mapGet inv.aliens f ++ [a])) city).length := by
        by_cases hcf : city = f
        · subst hcf
          rw [mapGet_insert_self]
          simp
        · rw [mapGet_insert_ne _ _ hcf, hal]
          simp
      have h2 := alienCount_erase (inv.aliens.insert f (mapGet inv.aliens f ++ [a])) city
      have h3 : alienCount ((inv.aliens.insert f (mapGet inv.aliens f ++ [a])).insert city
          (mapGet (inv.aliens.insert f (mapGet inv.aliens f ++ [a])) city).tail) =
          alienCount inv.aliens := by
        rw [alienCount_insert, List.length_tail]
        omega
      split_ifs with hz
      · have h4 := alienCount_erase ((inv.aliens.insert f (mapGet inv.aliens f ++ [a])).insert city
          (mapGet (inv.aliens.insert f (mapGet inv.aliens f ++ [a])) city).tail) city
        rw [hz] at h4
        omega
      · exact h3

/-- The second pass keeps the number of aliens. -/
theorem movePhase_alienCount {moves : List (Str × Nat)} : ∀ {inv inv' : Invasion},
    movePhase inv moves = .ok inv' → alienCount inv'.aliens = alienCount inv.aliens := by
  induction moves with
  | nil =>
    intro inv inv' h
    simp only [movePhase, Except.ok.injEq] at h
    rw [h]
  | cons m rest ih =>
    intro inv inv' h
    obtain ⟨city, r⟩ := m
    simp only [movePhase] at h
    split at h
    · cases h
    · rename_i inv1 hs
      rw [ih h, moveStep_alienCount hs]

/-- A destruction removes at least two aliens. -/
theorem destroyCity_alienCount {inv inv' : Invasion} {ev : Event} {c : Str}
    (h : destroyCity inv c = .ok (inv', ev)) :
    alienCount inv'.aliens + 2 ≤ alienCount inv.aliens := by
  obtain ⟨_, _, _, _, rest, hlen, _⟩ := destroyCity_spec h
  have := alienCount_erase inv.aliens c
  rw [hlen] at this
  rw [destroyCity_aliens h]
  simp only [List.length_cons] at this
  omega

/-- The first pass removes at least two aliens for each event it prints. -/
theorem destructionPhase_alienCount {order : List Str} : ∀ {inv inv' : Invasion}
    {evs : List Event}, destructionPhase inv order = .ok (inv', evs) →
    alienCount inv'.aliens + 2 * evs.length ≤ alienCount inv.aliens := by
  induction order with
  | nil =>
    intro inv inv' evs h
    simp only [destructionPhase, Except.ok.injEq, Prod.mk.injEq] at h
    obtain ⟨rfl, rfl⟩ := h
    simp
  | cons c rest ih =>
    intro inv inv' evs h
    simp only [destructionPhase] at h
    split_ifs at h with h2
    · split at h
      · cases h
      · rename_i inv1 ev hd
        split at h
        · cases h
        · rename_i inv2 evs2 hp
          simp only [Except.ok.injEq, Prod.mk.injEq] at h
          obtain ⟨rfl, rfl⟩ := h
          have := ih hp
          have := destroyCity_alienCount hd
          simp only [List.length_cons]
          omega
    · exact ih h

/-- A turn that completes is a first pass followed by a second pass. -/
theorem turn_spec {inv inv' : Invasion} {ch : TurnChoice} {evs : List Event}
    (h : turn inv ch = .ok (inv', evs)) :
    ∃ inv1, destructionPhase inv ch.order = .ok (inv1, evs) ∧
      movePhase inv1 ch.moves = .ok inv' := by
  unfold turn at h
  split at h
  · cases h
  · rename_i inv1 evs1 hd
    split at h
    · cases h
    · rename_i inv2 hm
      simp only [Except.ok.injEq, Prod.mk.injEq] at h
      obtain ⟨rfl, rfl⟩ := h
      exact ⟨inv1, hd, hm⟩

/-- C6. After a full turn the alien map holds at most as many aliens as before it,
and strictly fewer when the turn destroyed a city (printed an event); the second
pass alone leaves the number of aliens unchanged, whatever keys and draws. -/
theorem turn_alienCount (inv inv' : Invasion) (ch : TurnChoice) (evs : List Event)
    (h : turn inv ch = .ok (inv', evs)) :
    alienCount inv'.aliens ≤ alienCount inv.aliens ∧
    (evs ≠ [] → alienCount inv'.aliens < alienCount inv.aliens) ∧
    (∀ (s s' : Invasion) (moves : List (Str × Nat)),
      movePhase s moves = .ok s' → alienCount s'.aliens = alienCount s.aliens) := by
  obtain ⟨inv1, hd, hm⟩ := turn_spec h
  have h1 := destructionPhase_alienCount hd
  have h2 := movePhase_alienCount hm
  refine ⟨by omega, fun hne => ?_, fun s s' moves hs => movePhase_alienCount hs⟩
  have : 0 < evs.length := List.length_pos.mpr hne
  omega

/-- Witness for C6: the turn that destroys `A` in `twoCities`. -/
theorem turn_alienCount_witness :
    turn twoCities ⟨["A".toList], []⟩ =
      .ok (⟨citiesOf [("B", [])], ∅⟩, [⟨"A".toList, 0, 1⟩]) ∧
    (alienCount (∅ : AlienMap) ≤ alienCount twoCities.aliens ∧
      (([⟨"A".toList, 0, 1⟩] : List Event) ≠ [] →
        alienCount (∅ : AlienMap) < alienCount twoCities.aliens) ∧
      (∀ (s s' : Invasion) (moves : List (Str × Nat)),
        movePhase s moves = .ok s' → alienCount s'.aliens = alienCount s.aliens)) :=
  ⟨rfl, turn_alienCount twoCities ⟨citiesOf [("B", [])], ∅⟩ ⟨["A".toList], []⟩
    [⟨"A".toList, 0, 1⟩] rfl⟩

/-! ## The turn loop -/

/-- The first pass leaves each alien entry as it was or deletes it, and leaves at most one
alien at each key it visits. -/
theorem destructionPhase_aliens {order : List Str} : ∀ {inv inv' : Invasion}
    {evs : List Event}, destructionPhase inv order = .ok (inv', evs) →
    (∀ k, mapGet inv'.aliens k = mapGet inv.aliens k ∨ mapGet inv'.aliens k = []) ∧
      ∀ k ∈ order, (mapGet inv'.aliens k).length ≤ 1 := by
  induction order with
  | nil =>
    intro inv inv' evs h
    simp only [destructionPhase, Except.ok.injEq, Prod.mk.injEq] at h
    obtain ⟨rfl, rfl⟩ := h
    exact ⟨fun k => Or.inl rfl, fun k hk => by simp at hk⟩
  | cons c rest ih =>
    intro inv inv' evs h
    simp only [destructionPhase] at h
    split_ifs at h with h2
    · split at h
      · cases h
      · rename_i inv1 ev hd
        split at h
        · cases h
        · rename_i inv2 evs2 hp
          simp only [Except.ok.injEq, Prod.mk.injEq] at h
          obtain ⟨rfl, rfl⟩ := h
          obtain ⟨e1, e2⟩ := ih hp
          have hal := destroyCity_aliens hd
          have hstep : ∀ k, mapGet inv1.aliens k = mapGet inv.aliens k ∨
              mapGet inv1.aliens k = [] := by
            intro k
            rw [hal]
            by_cases hk : k = c
            · subst hk; exact Or.inr (mapGet_erase_self _ _)
            · exact Or.inl (mapGet_erase_ne _ hk)
          refine ⟨fun k => ?_, fun k hk => ?_⟩
          · rcases e1 k with h1 | h1
            · rw [h1]; exact hstep k
            · exact Or.inr h1
          · rcases List.mem_cons.mp hk with rfl | hk
            · rcases e1 k with h1 | h1
              · rw [h1, hal, mapGet_erase_self]; simp
              · rw [h1]; simp
            · exact e2 k hk
    · obtain ⟨e1, e2⟩ := ih h
      refine ⟨e1, fun k hk => ?_⟩
      rcases List.mem_cons.mp hk with rfl | hk
      · rcases e1 k with h1 | h1
        · rw [h1]; omega
        · rw [h1]; simp
      · exact e2 k hk

/-- C5. When the first pass of a turn completes, having visited every key of the
alien map, every entry of the alien map holds at most one alien. -/
theorem destructionPhase_at_most_one (inv inv' : Invasion) (order : List Str)
    (evs : List Event) (hord : ValidOrder inv order)
    (h : destructionPhase inv order = .ok (inv', evs)) :
    ∀ k l, inv'.aliens.lookup k = some l → l.length ≤ 1 := by
  obtain ⟨e1, e2⟩ := destructionPhase_aliens h
  intro k l hl
  rw [← mapGet_of_lookup hl]
  by_cases hk : k ∈ order
  · exact e2 k hk
  · have hnot : k ∉ inv.aliens := fun hm => hk (hord.symm.subset (AList.mem_keys.mp hm))
    rcases e1 k with h1 | h1
    · rw [h1, mapGet_of_not_mem hnot]; simp
    · rw [h1]; simp

/-- Witness for C5: the first pass on `everyCityTwo`, yielding `B` then `A`. -/
theorem destructionPhase_at_most_one_witness :
    ValidOrder everyCityTwo ["B".toList, "A".toList] ∧
    destructionPhase everyCityTwo ["B".toList, "A".toList] =
      .ok (⟨∅, ∅⟩, [⟨"B".toList, 2, 3⟩, ⟨"A".toList, 0, 1⟩]) ∧
    ∀ k l, (⟨∅, ∅⟩ : Invasion).aliens.lookup k = some l → l.length ≤ 1 :=
  ⟨by decide, rfl,
    destructionPhase_at_most_one everyCityTwo ⟨∅, ∅⟩ ["B".toList, "A".toList]
      [⟨"B".toList, 2, 3⟩, ⟨"A".toList, 0, 1⟩] (by decide) rfl⟩

/-- The loop of `runSimulation`, from the state reached after `t` turns, when it returns.
-/
theorem simLoop_spec (choice : Nat → TurnChoice) (inv0 : Invasion) :
    ∀ (left t : Nat) (s : Invasion) (out : List Event) (r : SimResult),
    afterTurns choice t inv0 = .ok s → simLoop choice left t s out = .ok r →
    t ≤ r.turns ∧ r.turns ≤ t + left ∧ (mapLen r.state.aliens = 0 ∨ r.turns = t + left) ∧
      afterTurns choice r.turns inv0 = .ok r.state ∧
      ∀ u, t ≤ u → u < r.turns →
        ∃ s', afterTurns choice u inv0 = .ok s' ∧ mapLen s'.aliens ≠ 0 := by
  intro left
  induction left with
  | zero =>
    intro t s out r hs h
    simp only [simLoop, Except.ok.injEq] at h
    subst h
    exact ⟨le_refl _, le_refl _, Or.inr rfl, hs, fun u h1 h2 => by simp only at h2; omega⟩
  | succ n ih =>
    intro t s out r hs h
    simp only [simLoop] at h
    split_ifs at h with hne
    · split at h
      · cases h
      · rename_i s1 evs ht
        have hs1 : afterTurns choice (t + 1) inv0 = .ok s1 := by
          simp only [afterTurns, hs, ht]
        obtain ⟨e1, e2, e3, e4, e5⟩ := ih (t + 1) s1 _ r hs1 h
        refine ⟨by omega, by omega, ?_, e4, fun u h1 h2 => ?_⟩
        · rcases e3 with e3 | e3
          · exact Or.inl e3
          · exact Or.inr (by omega)
        · by_cases hut : u = t
          · subst hut
            exact ⟨s, hs, hne⟩
          · exact e5 u (by omega) h2
    · simp only [Except.ok.injEq] at h
      subst h
      exact ⟨le_refl _, by simp, Or.inl (by simpa using hne), hs,
        fun u h1 h2 => by simp only at h2; omega⟩

/-- The loop of `runSimulation`, from the state reached after `t` turns, when it stops on
an error. -/
theorem simLoop_error (choice : Nat → TurnChoice) (inv0 : Invasion) :
    ∀ (left t : Nat) (s : Invasion) (out : List Event) (e : GoError),
    afterTurns choice t inv0 = .ok s → simLoop choice left t s out = .error e →
    ∃ u s', t ≤ u ∧ u < t + left ∧ afterTurns choice u inv0 = .ok s' ∧
      mapLen s'.aliens ≠ 0 ∧ turn s' (choice u) = .error e ∧
      ∀ v, t ≤ v → v < u → ∃ s'', afterTurns choice v inv0 = .ok s'' ∧ mapLen s''.aliens ≠ 0 := by
  intro left
  induction left with
  | zero =>
    intro t s out e _ h
    simp only [simLoop] at h
    cases h
  | succ n ih =>
    intro t s out e hs h
    simp only [simLoop] at h
    split_ifs at h with hne
    · split at h
      · rename_i e1 ht
        simp only [Except.error.injEq] at h
        subst h
        exact ⟨t, s, le_refl _, by omega, hs, hne, ht, fun v h1 h2 => by omega⟩
      · rename_i s1 evs ht
        have hs1 : afterTurns choice (t + 1) inv0 = .ok s1 := by
          simp only [afterTurns, hs, ht]
        obtain ⟨u, s', e1, e2, e3, e4, e5, e6⟩ := ih (t + 1) s1 _ e hs1 h
        refine ⟨u, s', by omega, by omega, e3, e4, e5, fun v h1 h2 => ?_⟩
        by_cases hvt : v = t
        · subst hvt
          exact ⟨s, hs, hne⟩
        · exact e6 v (by omega) h2

/-- C7. Every run of `runSimulation` ends within 10000 turns.  Either it returns
after at most 10000 completed turns, with the alien map empty or exactly 10000
turns completed, its final state being the one reached by that many turns; or it
stops on an error inside one of its first 10000 turns.  In both cases the alien
map was non-empty at the start of every turn that was started. -/
theorem runSimulation_turn_bound (inv : Invasion) (choice : Nat → TurnChoice) :
    (∃ r, runSimulation inv choice = .ok r ∧
      r.turns ≤ 10000 ∧ (mapLen r.state.aliens = 0 ∨ r.turns = 10000) ∧
      afterTurns choice r.turns inv = .ok r.state ∧
      ∀ u, u < r.turns → ∃ s, afterTurns choice u inv = .ok s ∧ mapLen s.aliens ≠ 0) ∨
    (∃ e u s, runSimulation inv choice = .error e ∧ u < 10000 ∧
      afterTurns choice u inv = .ok s ∧ turn s (choice u) = .error e ∧
      ∀ v, v ≤ u → ∃ s', afterTurns choice v inv = .ok s' ∧ mapLen s'.aliens ≠ 0) := by
  cases h : runSimulation inv choice with
  | ok r =>
    left
    obtain ⟨-, e2, e3, e4, e5⟩ := simLoop_spec choice inv 10000 0 inv [] r rfl h
    exact ⟨r, rfl, by omega, by simpa using e3, e4, fun u hu => e5 u (Nat.zero_le _) hu⟩
  | error e =>
    right
    obtain ⟨u, s, -, e2, e3, e4, e5, e6⟩ := simLoop_error choice inv 10000 0 inv [] e rfl h
    refine ⟨e, u, s, rfl, by omega, e3, e5, fun v hv => ?_⟩
    by_cases hvu : v = u
    · subst hvu
      exact ⟨s, e3, e4⟩
    · exact e6 v (Nat.zero_le _) (by omega)

/-- A range over an empty alien map yields no key. -/
theorem validMoves_empty_pending {inv : Invasion} {moves : List (Str × Nat)}
    (h : validMoves inv [] [] moves = true) : moves = [] := by
  cases moves with
  | nil => rfl
  | cons m rest =>
    obtain ⟨c, r⟩ := m
    simp [validMoves] at h

/-- What `ValidTurn` says once the outcome of the first pass is known. -/
theorem validTurn_spec {inv inv1 : Invasion} {ch : TurnChoice} {evs : List Event}
    (hv : ValidTurn inv ch) (hd : destructionPhase inv ch.order = .ok (inv1, evs)) :
    ValidOrder inv ch.order ∧ validMoves inv1 inv1.aliens.keys [] ch.moves = true := by
  simp only [ValidTurn, validTurn, Bool.and_eq_true, decide_eq_true_eq] at hv
  rw [hd] at hv
  exact hv

/-- C8. On the map `A east=B`, `B west=A` with aliens 0 and 1 in `A`, every run
halts after exactly one turn, prints the destruction of `A` by aliens 0 and 1,
and ends with the city map holding `B` alone, with no edge, and no alien. -/
theorem runSimulation_two_cities (choice : Nat → TurnChoice)
    (hv : ValidTurn twoCities (choice 0)) :
    runSimulation twoCities choice =
      .ok ⟨⟨citiesOf [("B", [])], ∅⟩, 1, [⟨"A".toList, 0, 1⟩]⟩ := by
  have ho : (choice 0).order = ["A".toList] := by
    simp only [ValidTurn, validTurn, Bool.and_eq_true, decide_eq_true_eq] at hv
    have : (choice 0).order.Perm ["A".toList] := hv.1
    exact List.perm_singleton.mp this
  have hd : destructionPhase twoCities (choice 0).order =
      .ok (⟨citiesOf [("B", [])], ∅⟩, [⟨"A".toList, 0, 1⟩]) := by
    rw [ho]; rfl
  have hm : (choice 0).moves = [] := validMoves_empty_pending (validTurn_spec hv hd).2
  have ht : turn twoCities (choice 0) =
      .ok (⟨citiesOf [("B", [])], ∅⟩, [⟨"A".toList, 0, 1⟩]) := by
    simp only [turn, hd, hm, movePhase]
  have hl : mapLen twoCities.aliens ≠ 0 := by decide
  show simLoop choice (9999 + 1) 0 twoCities [] = _
  rw [simLoop, if_pos hl, ht]
  rfl

/-- Witness for C8: the run in which the first range yields `A`. -/
theorem runSimulation_two_cities_witness :
    ValidTurn twoCities ⟨["A".toList], []⟩ ∧
    runSimulation twoCities (fun _ => ⟨["A".toList], []⟩) =
      .ok ⟨⟨citiesOf [("B", [])], ∅⟩, 1, [⟨"A".toList, 0, 1⟩]⟩ :=
  ⟨by decide, runSimulation_two_cities (fun _ => ⟨["A".toList], []⟩) (by decide)⟩

/-- C9. With no alien (`populateAliens` called with 0 returns the empty map), a run
of `runSimulation` completes no turn and returns both maps as they were. -/
theorem runSimulation_no_aliens (cities : CityMap) (choice : Nat → TurnChoice)
    (uniqueCities : List Str) (draws : List Nat) :
    populateAliens 0 cities uniqueCities draws = .ok (some ∅) ∧
    runSimulation ⟨cities, ∅⟩ choice = .ok ⟨⟨cities, ∅⟩, 0, []⟩ := by
  constructor
  · have : ¬ ((0 : Int) > (mapLen cities : Int) * 2) := by omega
    simp only [populateAliens, if_neg this]
    rfl
  · rfl

/-- C4 (evaluation at the failing input). The alien map of `threeToOne` is one that
`populateAliens` returns for three aliens, and no city holds more than two
aliens (each of `A`, `B`, `C` holds one).  In a turn whose second pass yields
`A`, `B`, `C`, the three aliens move to `D`: after the turn `D` holds three
aliens. -/
theorem turn_gathers_three_aliens :
    (∃ m, populateAliens 3 threeToOne.cities
        ["A".toList, "B".toList, "C".toList, "D".toList] [0, 1, 2] = .ok (some m) ∧
      ∀ k, m.lookup k = threeToOne.aliens.lookup k) ∧
    (∀ e ∈ threeToOne.aliens.entries, e.2.length ≤ 2) ∧
    ValidTurn threeToOne
      ⟨["A".toList, "B".toList, "C".toList],
        [("A".toList, 0), ("B".toList, 0), ("C".toList, 0)]⟩ ∧
    ∃ inv', turn threeToOne
        ⟨["A".toList, "B".toList, "C".toList],
          [("A".toList, 0), ("B".toList, 0), ("C".toList, 0)]⟩ = .ok (inv', []) ∧
      inv'.aliens.lookup "D".toList = some [0, 1, 2] := by
  refine ⟨⟨_, rfl, fun k => AList.perm_lookup (by decide)⟩, by decide, by decide, ?_⟩
  exact ⟨⟨threeToOne.cities, aliensOf [("D", [0, 1, 2])]⟩, rfl, rfl⟩

/-- C10 (evaluation at the failing input). The input `Foo north=Foobar`,
`Foobar south=Foo` is well formed and holds two neighbour tokens, none of which
is a self-loop; `populateCities` builds two cities holding one edge in all. -/
theorem populateCities_drops_edge_to_other_city :
    wellFormedInput fooLines = true ∧ tokenCount fooLines = 2 ∧ selfLoopCount fooLines = 0 ∧
    ∃ m, populateCities fooLines = .ok m ∧ mapLen m = 2 ∧ edgeCount m = 1 ∧
      mapGet m "Foo".toList = [] := by
  refine ⟨by decide, by decide, by decide, ?_⟩
  exact ⟨citiesOf [("Foobar", ["south=Foo"]), ("Foo", [])], rfl, by decide, by decide, by decide⟩

/-! ## Three aliens in one city -/

/-- The first pass changes nothing when no city holds two aliens. -/
theorem destructionPhase_noop {order : List Str} : ∀ {inv : Invasion},
    (∀ k, (mapGet inv.aliens k).length < 2) → destructionPhase inv order = .ok (inv, []) := by
  induction order with
  | nil => intro inv _; rfl
  | cons c rest ih =>
    intro inv h
    have := h c
    simp only [destructionPhase]
    rw [if_neg (by omega)]
    exact ih h

/-- A bound on the length of every entry bounds what every key reads. -/
theorem mapGet_length_of_entries {V : Type} (m : AList (fun _ : Str => List V)) (n : Nat)
    (h : ∀ e ∈ m.entries, e.2.length < n) (hn : 0 < n) : ∀ k, (mapGet m k).length < n := by
  intro k
  cases hl : m.lookup k with
  | none => simp [mapGet, hl, hn]
  | some v =>
    rw [mapGet_of_lookup hl]
    exact h ⟨k, v⟩ (AList.mem_lookup_iff.mp hl)

/-- The move step from a city with a single edge and a single alien. -/
theorem moveStep_single (inv : Invasion) (city dst tok : Str) (a : Int) (r : Nat)
    (hc : mapGet inv.cities city = [tok]) (hd : stripLabel tok = dst) (hne : city ≠ dst)
    (ha : mapGet inv.aliens city = [a]) :
    moveStep inv city r =
      .ok ⟨inv.cities,
        ((inv.aliens.insert dst (mapGet inv.aliens dst ++ [a])).insert city []).erase city⟩ := by
  unfold moveStep
  rw [hc]
  simp only [List.length_singleton, Nat.one_ne_zero, if_false, Nat.mod_one,
    List.getD_cons_zero, hd, ha]
  rw [mapGet_insert_ne _ _ hne, ha]
  simp only [List.tail_cons, mapGet_insert_self, List.length_nil, if_true]

/-- The move step from a city without edges changes nothing. -/
theorem moveStep_dead_end (inv : Invasion) (city : Str) (r : Nat)
    (hc : mapGet inv.cities city = []) : moveStep inv city r = .ok inv := by
  unfold moveStep
  rw [hc]
  simp

/-- Each of `A`, `B`, `C` has one edge, with target `D`. -/
theorem threeToOne_edge {k : Str} (hk : k ∈ ["A".toList, "B".toList, "C".toList]) :
    k ≠ "D".toList ∧ ∃ tok, mapGet threeToOne.cities k = [tok] ∧ stripLabel tok = "D".toList := by
  simp only [List.mem_cons, List.mem_singleton, List.not_mem_nil, or_false] at hk
  rcases hk with rfl | rfl | rfl
  · exact ⟨by decide, "east=D".toList, by decide, by decide⟩
  · exact ⟨by decide, "west=D".toList, by decide, by decide⟩
  · exact ⟨by decide, "north=D".toList, by decide, by decide⟩

/-- From a state satisfying `GatherInv`, every second pass a Go execution can make
completes with three aliens in `D`. -/
theorem movePhase_gathers : ∀ (moves : List (Str × Nat)) (inv : Invasion)
    (pending fresh : List Str), GatherInv inv pending fresh →
    validMoves inv pending fresh moves = true →
    ∃ inv', movePhase inv moves = .ok inv' ∧ (mapGet inv'.aliens "D".toList).length = 3 := by
  intro moves
  induction moves with
  | nil =>
    intro inv pending fresh hg hv
    obtain ⟨-, -, -, -, hcount⟩ := hg
    simp only [validMoves, List.isEmpty_iff] at hv
    subst hv
    exact ⟨inv, rfl, by simpa using hcount⟩
  | cons m rest ih =>
    intro inv pending fresh hg hv
    obtain ⟨city, r⟩ := m
    obtain ⟨hcities, hnd, hpend, hfresh, hcount⟩ := hg
    simp only [validMoves, Bool.and_eq_true, Bool.or_eq_true, decide_eq_true_eq] at hv
    obtain ⟨hmem, hv⟩ := hv
    by_cases hp : city ∈ pending
    · obtain ⟨habc, hone⟩ := hpend city hp
      obtain ⟨hnd', tok, htok, hstrip⟩ := threeToOne_edge habc
      obtain ⟨a, ha⟩ := List.length_eq_one.mp hone
      have hstep := moveStep_single inv city "D".toList tok a r (by rw [hcities]; exact htok)
        hstrip hnd' ha
      rw [hstep] at hv
      simp only [movePhase, hstep]
      apply ih _ _ _ _ hv
      refine ⟨hcities, hnd.erase city, fun k hk => ?_, fun k hk => ?_, ?_⟩
      · obtain ⟨hkc, hkp⟩ := (List.Nodup.mem_erase_iff hnd).mp hk
        obtain ⟨hkabc, hklen⟩ := hpend k hkp
        refine ⟨hkabc, ?_⟩
        show (mapGet (((inv.aliens.insert "D".toList _).insert city []).erase city) k).length = 1
        rw [mapGet_erase_ne _ hkc, mapGet_insert_ne _ _ hkc,
          mapGet_insert_ne _ _ (threeToOne_edge hkabc).1]
        exact hklen
      · rcases List.mem_append.mp hk with h1 | h1
        · exact hfresh k (List.mem_of_mem_erase h1)
        · simp only [List.mem_filter, decide_eq_true_eq] at h1
          obtain ⟨hin, hnot⟩ := h1
          have hin' : k ∈ ((inv.aliens.insert "D".toList
              (mapGet inv.aliens "D".toList ++ [a])).insert city []).erase city :=
            AList.mem_keys.mpr hin
          rw [AList.mem_erase, AList.mem_insert, AList.mem_insert] at hin'
          rcases hin'.2 with h2 | h2 | h2
          · exact absurd h2 hin'.1
          · exact h2
          · exact absurd (AList.mem_keys.mp h2) hnot
      · show (mapGet (((inv.aliens.insert "D".toList _).insert city []).erase city)
          "D".toList).length + (pending.erase city).length = 3
        rw [mapGet_erase_ne _ (Ne.symm hnd'), mapGet_insert_ne _ _ (Ne.symm hnd'),
          mapGet_insert_self, List.length_append, List.length_erase_of_mem hp]
        have : 0 < pending.length := List.length_pos_of_mem hp
        simp only [List.length_singleton]
        omega
    · have hf : city ∈ fresh := by
        rcases hmem with h | h
        · exact absurd h hp
        · exact h
      have hcd : city = "D".toList := hfresh city hf
      subst hcd
      have hstep := moveStep_dead_end inv "D".toList r (by rw [hcities]; decide)
      rw [hstep] at hv
      simp only [movePhase, hstep]
      apply ih _ _ _ _ hv
      refine ⟨hcities, hnd.erase _, fun k hk => hpend k (List.mem_of_mem_erase hk),
        fun k hk => ?_, ?_⟩
      · rcases List.mem_append.mp hk with h1 | h1
        · exact hfresh k (List.mem_of_mem_erase h1)
        · simp only [List.mem_filter, decide_eq_true_eq] at h1
          exact absurd h1.1 h1.2
      · rw [List.erase_of_not_mem hp]
        exact hcount

/-- In every turn a Go execution can make from `threeToOne`, nothing is destroyed
and the second pass leaves three aliens in `D`. -/
theorem turn_threeToOne_every_choice (ch : TurnChoice) (hv : ValidTurn threeToOne ch) :
    ∃ inv', turn threeToOne ch = .ok (inv', []) ∧
      (mapGet inv'.aliens "D".toList).length = 3 := by
  have hd : destructionPhase threeToOne ch.order = .ok (threeToOne, []) :=
    destructionPhase_noop (mapGet_length_of_entries _ 2 (by decide) (by decide))
  have hvm := (validTurn_spec hv hd).2
  obtain ⟨inv', hm, hlen⟩ := movePhase_gathers ch.moves threeToOne _ [] (by
    refine ⟨rfl, by decide, ?_, fun k hk => by simp at hk, by decide⟩
    decide) hvm
  exact ⟨inv', by simp only [turn, hd, hm], hlen⟩

/-! ## When `destroyCity` completes -/

/-- A list with at most one hit has no hits at two different indices. -/
theorem countP_le_one_pointwise (P : Str → Bool) : ∀ (l : List Str), l.countP P ≤ 1 →
    ∀ p q, p < l.length → q < l.length → P (l.getD p []) = true → P (l.getD q []) = true →
      p = q := by
  intro l
  induction l with
  | nil => intro _ p q hp; simp at hp
  | cons a l ih =>
    intro hc p q hp hq h1 h2
    rw [List.countP_cons] at hc
    cases p with
    | zero =>
      cases q with
      | zero => rfl
      | succ q =>
        exfalso
        simp only [List.getD_cons_zero] at h1
        simp only [List.getD_cons_succ] at h2
        simp only [List.length_cons, Nat.add_lt_add_iff_right] at hq
        have : 0 < l.countP P := List.countP_pos_iff.mpr
          ⟨l.getD q [], by rw [List.getD_eq_getElem _ _ hq]; exact List.getElem_mem _, h2⟩
        rw [if_pos h1] at hc
        omega
    | succ p =>
      simp only [List.length_cons, Nat.add_lt_add_iff_right] at hp
      simp only [List.getD_cons_succ] at h1
      have hpos : 0 < l.countP P := List.countP_pos_iff.mpr
        ⟨l.getD p [], by rw [List.getD_eq_getElem _ _ hp]; exact List.getElem_mem _, h1⟩
      cases q with
      | zero =>
        exfalso
        simp only [List.getD_cons_zero] at h2
        rw [if_pos h2] at hc
        omega
      | succ q =>
        simp only [List.length_cons, Nat.add_lt_add_iff_right] at hq
        simp only [List.getD_cons_succ] at h2
        have hle : l.countP P ≤ 1 := by omega
        rw [ih hle p q hp hq h1 h2]

/-- Without a hit among the indices still to visit, the inner loop returns and changes
nothing. -/
theorem removeLoop_no_hit (city : Str) : ∀ (todo i : Nat) (arr : List Str) (len : Nat),
    (∀ p, i ≤ p → p < i + todo → strContains (arr.getD p []) city = false) →
    removeLoop city todo i arr len = .ok (arr, len) := by
  intro todo
  induction todo with
  | zero => intro i arr len _; rfl
  | succ n ih =>
    intro i arr len h
    have h0 := h i (le_refl _) (by omega)
    unfold removeLoop
    rw [if_neg (by rw [h0]; simp)]
    exact ih (i + 1) arr len (fun p h1 h2 => h p (by omega) (by omega))

/-- With at most one hit among the indices still to visit and nothing removed so far, the
inner loop returns. -/
theorem removeLoop_completes (city : Str) : ∀ (todo i : Nat) (arr : List Str),
    (∀ p q, i ≤ p → p < i + todo → i ≤ q → q < i + todo →
      strContains (arr.getD p []) city = true → strContains (arr.getD q []) city = true →
      p = q) →
    ∃ r, removeLoop city todo i arr (i + todo) = .ok r := by
  intro todo
  induction todo with
  | zero => intro i arr _; exact ⟨_, rfl⟩
  | succ n ih =>
    intro i arr h
    unfold removeLoop
    by_cases hit : strContains (arr.getD i []) city = true
    · rw [if_pos hit, if_pos (by omega)]
      refine ⟨_, removeLoop_no_hit city n (i + 1) _ _ (fun p h1 h2 => ?_)⟩
      rw [getD_set_ne _ _ _ (by omega)]
      by_contra hc
      have hc' : strContains (arr.getD p []) city = true := by simpa using hc
      have := h i p (le_refl _) (by omega) (by omega) (by omega) hit hc'
      omega
    · rw [if_neg hit]
      have := ih (i + 1) arr (fun p q h1 h2 h3 h4 => h p q (by omega) (by omega) (by omega)
        (by omega))
      rwa [show i + 1 + n = i + (n + 1) by omega] at this

/-- On a slice with at most one hit the inner loop returns, and leaves a slice without
hits. -/
theorem removeLoop_completes_take (city : Str) (arr : List Str) (len : Nat)
    (hlen : len ≤ arr.length) (h : AtMostOneHit city (arr.take len)) :
    ∃ arr' len', removeLoop city len 0 arr len = .ok (arr', len') ∧
      arr'.length = arr.length ∧ len' ≤ len ∧
      ∀ t ∈ arr'.take len', strContains t city = false := by
  have hp := countP_le_one_pointwise (fun t => strContains t city) (arr.take len) h
  have hget : ∀ p, p < len → (arr.take len).getD p [] = arr.getD p [] := by
    intro p hp'
    rw [List.getD_eq_getElem _ _ (by rw [List.length_take]; omega),
      List.getD_eq_getElem _ _ (by omega), List.getElem_take]
  have hl : (arr.take len).length = len := by rw [List.length_take]; omega
  obtain ⟨⟨arr', len'⟩, hr⟩ := removeLoop_completes city len 0 arr (fun p q _ h2 _ h4 h5 h6 => by
    apply hp p q (by omega) (by omega)
    · rw [hget p (by omega)]; exact h5
    · rw [hget q (by omega)]; exact h6)
  rw [Nat.zero_add] at hr
  obtain ⟨e1, e2, e3⟩ := removeLoop_clean city len 0 arr len arr' len' (by omega) (by omega)
    (fun k hk => by omega) hr
  refine ⟨arr', len', hr, e1, e2, fun t ht => ?_⟩
  obtain ⟨k, hk, rfl⟩ := List.getElem_of_mem ht
  rw [List.length_take] at hk
  have := e3 k (by omega)
  rw [List.getD_eq_getElem _ _ (by omega)] at this
  rw [List.getElem_take]
  exact this

/-- A list without hits has at most one. -/
theorem atMostOneHit_of_clean {city : Str} {l : List Str}
    (h : ∀ t ∈ l, strContains t city = false) : AtMostOneHit city l := by
  have : l.countP (fun t => strContains t city) = 0 := by
    rw [List.countP_eq_zero]
    intro t ht
    rw [h t ht]
    simp
  unfold AtMostOneHit
  omega

/-- When no edge list holds two hits, the outer loop returns. -/
theorem neighborLoop_completes (city : Str) : ∀ (todo j : Nat) (own : List Str)
    (cities : CityMap),
    (∀ k, AtMostOneHit city (mapGet cities k)) →
    (∀ cur, cities.lookup city = some cur → cur = own.take cur.length) →
    ∃ r, neighborLoop city todo j own cities = .ok r := by
  intro todo
  induction todo with
  | zero => intro j own cities _ _; exact ⟨_, rfl⟩
  | succ n ih =>
    intro j own cities hq hown
    simp only [neighborLoop]
    split
    · exact ih (j + 1) own cities hq hown
    · rename_i cur hcur
      have hqc : AtMostOneHit city cur := by
        have := hq (stripLabel (own.getD j []))
        rwa [mapGet_of_lookup hcur] at this
      by_cases hn : stripLabel (own.getD j []) = city
      · rw [if_pos hn]
        rw [hn] at hcur
        have hcu := hown cur hcur
        have hle : cur.length ≤ own.length := by
          have := congrArg List.length hcu
          rw [List.length_take] at this
          omega
        obtain ⟨arr', len', hr, e1, e2, e3⟩ :=
          removeLoop_completes_take city own cur.length hle (by rw [← hcu]; exact hqc)
        rw [hr]
        simp only [if_pos hn]
        apply ih
        · intro k
          by_cases hk : k = stripLabel (own.getD j [])
          · subst hk
            rw [mapGet_insert_self]
            exact atMostOneHit_of_clean e3
          · rw [mapGet_insert_ne _ _ hk]
            exact hq k
        · intro c2 hc2
          rw [hn, AList.lookup_insert] at hc2
          simp only [Option.some.injEq] at hc2
          subst hc2
          rw [List.length_take, Nat.min_eq_left (by omega)]
      · rw [if_neg hn]
        obtain ⟨arr', len', hr, e1, e2, e3⟩ :=
          removeLoop_completes_take city cur cur.length (le_refl _)
            (by rw [List.take_length]; exact hqc)
        rw [hr]
        simp only [if_neg hn]
        apply ih
        · intro k
          by_cases hk : k = stripLabel (own.getD j [])
          · subst hk
            rw [mapGet_insert_self]
            exact atMostOneHit_of_clean e3
          · rw [mapGet_insert_ne _ _ hk]
            exact hq k
        · intro c2 hc2
          rw [AList.lookup_insert_ne (Ne.symm hn)] at hc2
          exact hown c2 hc2

/-- A sufficient condition for `destroyCity` to return: the city holds at least two
aliens and no edge list of the map holds two edges that contain its name. -/
theorem destroyCity_completes (inv : Invasion) (c : Str)
    (htwo : 2 ≤ (mapGet inv.aliens c).length)
    (hq : ∀ k, AtMostOneHit c (mapGet inv.cities k)) :
    ∃ inv' ev, destroyCity inv c = .ok (inv', ev) := by
  obtain ⟨⟨own, cities⟩, hr⟩ := neighborLoop_completes c (mapGet inv.cities c).length 0
    (mapGet inv.cities c) inv.cities hq (fun cur hcur => by
      rw [mapGet_of_lookup hcur, List.take_length])
  unfold destroyCity
  split
  · rw [hr]
    exact ⟨_, _, rfl⟩
  · rename_i hne
    exfalso
    cases hl : mapGet inv.aliens c with
    | nil => rw [hl] at htwo; simp at htwo
    | cons a l =>
      cases l with
      | nil => rw [hl] at htwo; simp at htwo
      | cons b l => exact hne a b l hl

/-! ## `populateCities`, `populateAliens` and `writeMapState` -/

/-- The loop over the tokens of a line keeps every list free of edges that contain
the name of their own city. -/
theorem addNeighbors_noSelf (name : Str) : ∀ (tokens : List Str) (m : CityMap),
    (∀ k, ∀ t ∈ mapGet m k, strContains t k = false) →
    ∀ k, ∀ t ∈ mapGet (addNeighbors name tokens m) k, strContains t k = false := by
  intro tokens
  induction tokens with
  | nil => intro m h; exact h
  | cons nb rest ih =>
    intro m h
    simp only [addNeighbors]
    split_ifs with hc
    · exact ih m h
    · apply ih
      intro k t ht
      by_cases hk : k = name
      · subst hk
        rw [mapGet_insert_self] at ht
        rcases List.mem_append.mp ht with h1 | h1
        · exact h k t h1
        · rw [List.mem_singleton] at h1
          subst h1
          simpa using hc
      · rw [mapGet_insert_ne _ _ hk] at ht
        exact h k t ht

/-- The body of the scanner loop keeps every list free of edges that contain the
name of their own city. -/
theorem populateLine_noSelf (m : CityMap) (line : Str)
    (h : ∀ k, ∀ t ∈ mapGet m k, strContains t k = false) :
    ∀ k, ∀ t ∈ mapGet (populateLine m line) k, strContains t k = false := by
  unfold populateLine
  split
  · exact h
  · rename_i name tokens _
    apply addNeighbors_noSelf
    split_ifs
    · intro k t ht
      by_cases hk : k = name
      · subst hk
        rw [mapGet_insert_self] at ht
        simp at ht
      · rw [mapGet_insert_ne _ _ hk] at ht
        exact h k t ht
    · exact h

/-- The scanner loop keeps every list free of edges that contain the name of their
own city. -/
theorem foldl_populateLine_noSelf : ∀ (lines : List Str) (m : CityMap),
    (∀ k, ∀ t ∈ mapGet m k, strContains t k = false) →
    ∀ k, ∀ t ∈ mapGet (lines.foldl populateLine m) k, strContains t k = false := by
  intro lines
  induction lines with
  | nil => intro m h; exact h
  | cons line rest ih =>
    intro m h
    exact ih _ (populateLine_noSelf m line h)

/-- C14. In the map `populateCities` builds, whatever the lines, no city has an edge
whose target is the city itself (nor one that contains its name). -/
theorem populateCities_no_self_loop (lines : List Str) (m : CityMap)
    (h : populateCities lines = .ok m) :
    ∀ k, ∀ t ∈ mapGet m k, stripLabel t ≠ k := by
  have hm : m = lines.foldl populateLine ∅ := by
    unfold populateCities at h
    simp only at h
    split_ifs at h
    simp only [Except.ok.injEq] at h
    exact h.symm
  intro k t ht hst
  have := foldl_populateLine_noSelf lines ∅ (fun k t ht => by simp [mapGet] at ht) k t
    (by rw [← hm]; exact ht)
  rw [contains_of_target hst] at this
  cases this

/-- Witness for C14: the input `A east=B loop=A`, `B west=A`. -/
theorem populateCities_no_self_loop_witness :
    populateCities ["A east=B loop=A".toList, "B west=A".toList] =
      .ok (citiesOf [("B", ["west=A"]), ("A", ["east=B"])]) ∧
    ∀ k, ∀ t ∈ mapGet (citiesOf [("B", ["west=A"]), ("A", ["east=B"])]) k, stripLabel t ≠ k :=
  ⟨rfl, populateCities_no_self_loop ["A east=B loop=A".toList, "B west=A".toList] _ rfl⟩

/-- C20 (evaluation at the failing inputs). The map of `fooPanic` is the one
`populateCities` builds from its three lines, and `Foo` holds two aliens: the
call `destroyCity` of `Foo` panics, in the list of `Bar`, whose edges `west=Foo`
and `north=Foobar` both contain `Foo`.  So does the call for `A` in `twoRoads`,
where `B` lists `A` twice. -/
theorem destroyCity_index_panic :
    (∃ m, populateCities fooPanicLines = .ok m ∧ ∀ k, m.lookup k = fooPanic.cities.lookup k) ∧
    2 ≤ (mapGet fooPanic.aliens "Foo".toList).length ∧
    destroyCity fooPanic "Foo".toList = .error .panic ∧
    2 ≤ (mapGet twoRoads.aliens "A".toList).length ∧
    destroyCity twoRoads "A".toList = .error .panic :=
  ⟨⟨_, rfl, fun _ => AList.perm_lookup (by decide)⟩, by decide, rfl, by decide, rfl⟩

/-- C13 (evaluation at the failing input). The map `deadEndCities` is the one
`populateCities` builds from `A east=B` and `B`.  For it `writeMapState` writes
`B` followed by a space, and reading the file back gives `B` one edge, the empty
token: two edges in all where the map holds one. -/
theorem writeMapState_dead_end_not_read_back :
    populateCities ["A east=B".toList, "B".toList] = .ok (citiesOf [("B", []), ("A", ["east=B"])]) ∧
    (∀ k, (citiesOf [("B", []), ("A", ["east=B"])]).lookup k = deadEndCities.lookup k) ∧
    writeMapState deadEndCities ["A".toList, "B".toList] = "A east=B\nB \n".toList ∧
    scanLines (writeMapState deadEndCities ["A".toList, "B".toList]) =
      ["A east=B".toList, "B ".toList] ∧
    mapGet deadEndCities "B".toList = [] ∧ edgeCount deadEndCities = 1 ∧
    ∃ m, populateCities (scanLines (writeMapState deadEndCities ["A".toList, "B".toList])) =
        .ok m ∧
      mapGet m "B".toList = [[]] ∧ edgeCount m = 2 :=
  ⟨rfl, fun _ => AList.perm_lookup (by decide), by decide, by decide, by decide, by decide,
    citiesOf [("B", [""]), ("A", ["east=B"])], rfl, by decide, by decide⟩

/-- A city accepted by the draw loop does not hold exactly two aliens. -/
theorem pickCity_spec (uc : List Str) (aliens : AlienMap) : ∀ (draws rest : List Nat)
    (city : Str), pickCity uc aliens draws = some (city, rest) →
    (mapGet aliens city).length ≠ 2 := by
  intro draws
  induction draws with
  | nil => intro rest city h; simp [pickCity] at h
  | cons r ds ih =>
    intro rest city h
    simp only [pickCity] at h
    split_ifs at h with h2
    · exact ih rest city h
    · simp only [Option.some.injEq, Prod.mk.injEq] at h
      rw [← h.1]
      exact h2

/-- The placing loop stops on an error only by drawing from an empty city list. -/
theorem placeAliens_error (uc : List Str) : ∀ (todo : Nat) (i : Int) (aliens : AlienMap)
    (draws : List Nat) (e : GoError), placeAliens uc todo i aliens draws = .error e →
    e = .panic ∧ uc.length = 0 ∧ 0 < todo := by
  intro todo
  induction todo with
  | zero => intro i aliens draws e h; simp [placeAliens] at h
  | succ n ih =>
    intro i aliens draws e h
    simp only [placeAliens] at h
    split_ifs at h with h0
    · simp only [Except.error.injEq] at h
      exact ⟨h.symm, h0, Nat.succ_pos n⟩
    · split at h
      · cases h
      · exact absurd (ih _ _ _ e h).2.1 h0

/-- C12. With `uniqueCities` the keys of `cities`, `populateAliens` stops on the fatal
error exactly when `numAliens` exceeds twice the number of cities; otherwise it
does not stop on a panic either: it never draws from an empty city list. -/
theorem populateAliens_fatal_iff (numAliens : Int) (cities : CityMap) (uniqueCities : List Str)
    (draws : List Nat) (huc : uniqueCities.Perm cities.keys) :
    (populateAliens numAliens cities uniqueCities draws = .error .fatal ↔
      numAliens > 2 * (mapLen cities : Int)) ∧
    (numAliens ≤ 2 * (mapLen cities : Int) →
      ∃ r, populateAliens numAliens cities uniqueCities draws = .ok r) := by
  have hlen : uniqueCities.length = mapLen cities := huc.length_eq
  constructor
  · constructor
    · intro h
      unfold populateAliens at h
      split_ifs at h with hgt
      · omega
      · exact absurd (placeAliens_error _ _ _ _ _ _ h).1 (by decide)
    · intro hgt
      unfold populateAliens
      rw [if_pos (by omega)]
  · intro hle
    unfold populateAliens
    rw [if_neg (by omega)]
    cases hr : placeAliens uniqueCities numAliens.toNat 0 ∅ draws with
    | ok r => exact ⟨r, rfl⟩
    | error e =>
      exfalso
      obtain ⟨-, h0, hpos⟩ := placeAliens_error _ _ _ _ _ _ hr
      omega

/-- Witness for C12: three aliens on the four cities of `threeToOne`. -/
theorem populateAliens_fatal_iff_witness :
    ["A".toList, "B".toList, "C".toList, "D".toList].Perm threeToOne.cities.keys ∧
    (populateAliens 9 threeToOne.cities ["A".toList, "B".toList, "C".toList, "D".toList]
        [0, 1, 2] = .error .fatal ↔ (9 : Int) > 2 * (mapLen threeToOne.cities : Int)) ∧
    ((3 : Int) ≤ 2 * (mapLen threeToOne.cities : Int) →
      ∃ r, populateAliens 3 threeToOne.cities
        ["A".toList, "B".toList, "C".toList, "D".toList] [0, 1, 2] = .ok r) :=
  ⟨by decide,
    (populateAliens_fatal_iff 9 threeToOne.cities
      ["A".toList, "B".toList, "C".toList, "D".toList] [0, 1, 2] (by decide)).1,
    (populateAliens_fatal_iff 3 threeToOne.cities
      ["A".toList, "B".toList, "C".toList, "D".toList] [0, 1, 2] (by decide)).2⟩

/-! ## The aliens of a map -/

/-- Removing a key removes the aliens of its entry from the list of all aliens. -/
theorem flatten_kerase (k : Str) : ∀ l : List (Sigma (fun _ : Str => List Int)),
    (((l.dlookup k).getD []) ++ ((l.kerase k).map (fun e => e.2)).flatten).Perm
      ((l.map (fun e => e.2)).flatten) := by
  intro l
  induction l with
  | nil => simp
  | cons e l ih =>
    obtain ⟨a, b⟩ := e
    by_cases h : k = a
    · subst h
      have e1 : List.kerase k ((⟨k, b⟩ : Sigma (fun _ : Str => List Int)) :: l) = l :=
        List.kerase_cons_eq rfl
      have e2 : List.dlookup k ((⟨k, b⟩ : Sigma (fun _ : Str => List Int)) :: l) = some b :=
        List.dlookup_cons_eq l k b
      rw [e1, e2]
      simp
    · have e1 : List.kerase k ((⟨a, b⟩ : Sigma (fun _ : Str => List Int)) :: l) =
          ⟨a, b⟩ :: List.kerase k l := List.kerase_cons_ne h
      have e2 : List.dlookup k ((⟨a, b⟩ : Sigma (fun _ : Str => List Int)) :: l) =
          List.dlookup k l := List.dlookup_cons_ne l ⟨a, b⟩ h
      rw [e1, e2]
      simp only [List.map_cons, List.flatten_cons]
      rw [← List.append_assoc]
      refine (List.Perm.append_right _ List.perm_append_comm).trans ?_
      rw [List.append_assoc]
      exact List.Perm.append_left b ih

/-- The aliens of a map are those of the entry of `k` and those of the other entries. -/
theorem allAliens_erase (m : AlienMap) (k : Str) :
    (mapGet m k ++ allAliens (m.erase k)).Perm (allAliens m) :=
  flatten_kerase k m.entries

/-- Assigning a key replaces the aliens of its entry in the list of all aliens. -/
theorem allAliens_insert (m : AlienMap) (k : Str) (v : List Int) :
    allAliens (m.insert k v) = v ++ allAliens (m.erase k) := by
  simp [allAliens, AList.insert_entries, AList.erase]

/-- The number of aliens is the length of the list of all aliens. -/
theorem alienCount_eq_length (m : AlienMap) : alienCount m = (allAliens m).length := by
  simp [alienCount, allAliens, List.length_flatten, List.map_map, Function.comp_def]

/-- Appending an alien to the entry of `k` adds it to the list of all aliens. -/
theorem allAliens_append (m : AlienMap) (k : Str) (a : Int) :
    (allAliens (m.insert k (mapGet m k ++ [a]))).Perm (allAliens m ++ [a]) := by
  rw [allAliens_insert]
  rw [List.append_assoc]
  refine (List.Perm.append_left _ List.perm_append_comm).trans ?_
  rw [← List.append_assoc]
  exact List.Perm.append_right _ (allAliens_erase m k)

/-- The placing loop: with the ids below `n` placed, at most two in a city, the map
returned holds the ids below `n + todo`, at most two in a city. -/
theorem placeAliens_spec (uc : List Str) : ∀ (todo n : Nat) (aliens : AlienMap)
    (draws : List Nat) (m : AlienMap),
    placeAliens uc todo (n : Int) aliens draws = .ok (some m) →
    (∀ k, (mapGet aliens k).length ≤ 2) → (allAliens aliens).Perm (idsBelow n) →
    (∀ k, (mapGet m k).length ≤ 2) ∧ (allAliens m).Perm (idsBelow (n + todo)) := by
  intro todo
  induction todo with
  | zero =>
    intro n aliens draws m h h2 hp
    simp only [placeAliens, Except.ok.injEq, Option.some.injEq] at h
    subst h
    exact ⟨h2, hp⟩
  | succ t ih =>
    intro n aliens draws m h h2 hp
    simp only [placeAliens] at h
    split_ifs at h with h0
    split at h
    · simp at h
    · rename_i city rest hpick
      have hne := pickCity_spec uc aliens draws rest city hpick
      have hcast : ((n : Int) + 1) = ((n + 1 : Nat) : Int) := by push_cast; rfl
      rw [hcast] at h
      obtain ⟨r1, r2⟩ := ih (n + 1) _ rest m h
        (by
          intro k
          by_cases hk : k = city
          · subst hk
            rw [mapGet_insert_self, List.length_append]
            have := h2 k
            simp only [List.length_singleton]
            omega
          · rw [mapGet_insert_ne _ _ hk]
            exact h2 k)
        (by
          refine (allAliens_append aliens city n).trans ?_
          simp only [idsBelow, List.range_succ, List.map_append, List.map_cons, List.map_nil]
          exact List.Perm.append_right _ hp)
      refine ⟨r1, ?_⟩
      rwa [show n + (t + 1) = n + 1 + t by omega]

/-- C11. The alien map `populateAliens` returns for `numAliens` aliens holds the ids
`0 .. numAliens - 1`, each once, so `numAliens` aliens in all, and at most two
in a city. -/
theorem populateAliens_ids (numAliens : Int) (cities : CityMap) (uniqueCities : List Str)
    (draws : List Nat) (m : AlienMap) (h0 : 0 ≤ numAliens)
    (hle : numAliens ≤ 2 * (mapLen cities : Int))
    (h : populateAliens numAliens cities uniqueCities draws = .ok (some m)) :
    (allAliens m).Perm (idsBelow numAliens.toNat) ∧ (allAliens m).Nodup ∧
    (alienCount m : Int) = numAliens ∧ ∀ k, (mapGet m k).length ≤ 2 := by
  unfold populateAliens at h
  rw [if_neg (by omega)] at h
  obtain ⟨r1, r2⟩ := placeAliens_spec uniqueCities numAliens.toNat 0 ∅ draws m h
    (fun k => by simp [mapGet]) (by simp [allAliens, idsBelow])
  rw [Nat.zero_add] at r2
  refine ⟨r2, ?_, ?_, r1⟩
  · rw [r2.nodup_iff]
    exact (List.nodup_range _).map (fun a b hab => by simpa using hab)
  · rw [alienCount_eq_length, r2.length_eq]
    simp only [idsBelow, List.length_map, List.length_range]
    omega

/-- Witness for C11: three aliens on the four cities of `threeToOne`, the draws
being 0, 1, 2. -/
theorem populateAliens_ids_witness :
    (0 : Int) ≤ 3 ∧ (3 : Int) ≤ 2 * (mapLen threeToOne.cities : Int) ∧
    populateAliens 3 threeToOne.cities ["A".toList, "B".toList, "C".toList, "D".toList]
      [0, 1, 2] = .ok (some (aliensOf [("C", [2]), ("B", [1]), ("A", [0])])) ∧
    ((allAliens (aliensOf [("C", [2]), ("B", [1]), ("A", [0])])).Perm (idsBelow (3 : Int).toNat) ∧
      (allAliens (aliensOf [("C", [2]), ("B", [1]), ("A", [0])])).Nodup ∧
      (alienCount (aliensOf [("C", [2]), ("B", [1]), ("A", [0])]) : Int) = 3 ∧
      ∀ k, (mapGet (aliensOf [("C", [2]), ("B", [1]), ("A", [0])]) k).length ≤ 2) :=
  ⟨by decide, by decide, rfl,
    populateAliens_ids 3 threeToOne.cities ["A".toList, "B".toList, "C".toList, "D".toList]
      [0, 1, 2] _ (by decide) (by decide) rfl⟩

/-! ## Draws with which `populateAliens` returns -/

/-- With the cities filled two by two in the order of the city list, the placing
loop returns a map: alien `i` is drawn the city of index `i / 2`, which holds
`i % 2` aliens and is accepted at once. -/
theorem placeAliens_pairs (uc : List Str) (hnd : uc.Nodup) : ∀ (todo n : Nat)
    (aliens : AlienMap), n + todo ≤ 2 * uc.length →
    (∀ j, j < uc.length → (mapGet aliens (uc.getD j [])).length = min 2 (n - 2 * j)) →
    ∃ m, placeAliens uc todo (n : Int) aliens ((List.range' n todo).map (fun i => i / 2)) =
      .ok (some m) := by
  intro todo
  induction todo with
  | zero => intro n aliens _ _; exact ⟨aliens, rfl⟩
  | succ t ih =>
    intro n aliens hle hinv
    have hlen : uc.length ≠ 0 := by omega
    have hidx : n / 2 < uc.length := by omega
    have hmod : n / 2 % uc.length = n / 2 := Nat.mod_eq_of_lt hidx
    have hcur := hinv (n / 2) hidx
    have hne2 : (mapGet aliens (uc.getD (n / 2) [])).length ≠ 2 := by
      rw [hcur]; omega
    simp only [List.range'_succ, List.map_cons, placeAliens]
    rw [if_neg hlen]
    simp only [pickCity, hmod]
    rw [if_neg hne2]
    simp only
    have hcast : ((n : Int) + 1) = ((n + 1 : Nat) : Int) := by push_cast; rfl
    rw [hcast]
    apply ih (n + 1) _ (by omega)
    intro j hj
    by_cases hjn : j = n / 2
    · subst hjn
      rw [mapGet_insert_self, List.length_append, hcur]
      simp only [List.length_singleton]
      omega
    · have hneq : uc.getD j [] ≠ uc.getD (n / 2) [] := by
        rw [List.getD_eq_getElem _ _ hj, List.getD_eq_getElem _ _ hidx]
        intro heq
        exact hjn ((hnd.getElem_inj_iff).mp heq)
      rw [mapGet_insert_ne _ _ hneq, hinv j hj]
      omega

/-- For every number of aliens from 0 to twice the number of cities there are draws
with which `populateAliens` returns a map. -/
theorem populateAliens_can_return (numAliens : Int) (cities : CityMap)
    (uniqueCities : List Str) (huc : uniqueCities.Perm cities.keys)
    (hle : numAliens ≤ 2 * (mapLen cities : Int)) :
    ∃ draws m, populateAliens numAliens cities uniqueCities draws = .ok (some m) := by
  have hnd : uniqueCities.Nodup := huc.nodup_iff.mpr (AList.keys_nodup _)
  have hlen : uniqueCities.length = mapLen cities := huc.length_eq
  obtain ⟨m, hm⟩ := placeAliens_pairs uniqueCities hnd numAliens.toNat 0 ∅ (by omega)
    (fun j _ => by simp [mapGet])
  refine ⟨(List.range' 0 numAliens.toNat).map (fun i => i / 2), m, ?_⟩
  unfold populateAliens
  rw [if_neg (by omega)]
  exact hm

/-! ## The move step -/

/-- The regular expression matches a label that holds neither `=` nor a newline,
followed by `=`. -/
theorem afterLabel_label (dir target : Str) (h1 : '=' ∉ dir) (h2 : '\n' ∉ dir) :
    afterLabel (dir ++ '=' :: target) = some target := by
  induction dir with
  | nil => simp [afterLabel]
  | cons c cs ih =>
    simp only [List.mem_cons, not_or] at h1 h2
    simp only [List.cons_append, afterLabel]
    rw [if_neg (Ne.symm h1.1), if_neg (Ne.symm h2.1)]
    exact ih h1.2 h2.2

/-- The regular expression strips a label that holds neither `=` nor a newline. -/
theorem stripLabel_label (dir target : Str) (h1 : '=' ∉ dir) (h2 : '\n' ∉ dir) :
    stripLabel (dir ++ '=' :: target) = target := by
  rw [stripLabel, afterLabel_label dir target h1 h2]
  rfl

/-- C15. Let city `c` hold the aliens `a :: rest` and have an edge list that is not
empty, and let `d` be the city named by the chosen edge, its label stripped.
The move step returns; it leaves the city map as it was; when `d` is another
city, `d` then holds its aliens followed by `a`, and `c` holds `rest`, its entry
being deleted exactly when `rest` is empty; when `d` is `c` itself, `c` holds
`rest` followed by `a`; every other entry of the alien map is as it was.  The
label stripped from a token `dir=target` whose `dir` holds neither `=` nor a
newline is `dir=` and leaves `target`. -/
theorem moveStep_effect (inv : Invasion) (c : Str) (r : Nat) (a : Int) (rest : List Int)
    (hedges : mapGet inv.cities c ≠ []) (hocc : inv.aliens.lookup c = some (a :: rest)) :
    ∃ inv' d, moveStep inv c r = .ok inv' ∧
      d = stripLabel ((mapGet inv.cities c).getD (r % (mapGet inv.cities c).length) []) ∧
      (mapGet inv.cities c).getD (r % (mapGet inv.cities c).length) [] ∈ mapGet inv.cities c ∧
      inv'.cities = inv.cities ∧
      (d ≠ c → inv'.aliens.lookup d = some (mapGet inv.aliens d ++ [a]) ∧
        mapGet inv'.aliens c = rest ∧ (c ∈ inv'.aliens ↔ rest ≠ [])) ∧
      (d = c → inv'.aliens.lookup c = some (rest ++ [a])) ∧
      (∀ k, k ≠ c → k ≠ d → inv'.aliens.lookup k = inv.aliens.lookup k) ∧
      ∀ dir target : Str, '=' ∉ dir → '\n' ∉ dir → stripLabel (dir ++ '=' :: target) = target := by
  have hlen : (mapGet inv.cities c).length ≠ 0 := by
    intro h0
    exact hedges (List.length_eq_zero.mp h0)
  have hget : mapGet inv.aliens c = a :: rest := mapGet_of_lookup hocc
  generalize hd : stripLabel ((mapGet inv.cities c).getD
    (r % (mapGet inv.cities c).length) []) = d
  have hmem : (mapGet inv.cities c).getD (r % (mapGet inv.cities c).length) [] ∈
      mapGet inv.cities c := by
    rw [List.getD_eq_getElem _ _ (Nat.mod_lt _ (Nat.pos_of_ne_zero hlen))]
    exact List.getElem_mem _
  by_cases hdc : d = c
  · refine ⟨⟨inv.cities, (inv.aliens.insert d (mapGet inv.aliens d ++ [a])).insert c
        (rest ++ [a])⟩, d, ?_, rfl, hmem, rfl, fun h => absurd hdc h, fun _ => ?_,
        fun k hk hkd => ?_, stripLabel_label⟩
    · unfold moveStep
      rw [if_neg hlen]
      simp only [hd, hget]
      subst hdc
      rw [mapGet_insert_self, hget]
      simp only [List.cons_append, List.tail_cons, mapGet_insert_self]
      rw [if_neg (by simp)]
    · exact AList.lookup_insert _
    · show ((inv.aliens.insert d _).insert c _).lookup k = _
      rw [AList.lookup_insert_ne hk, AList.lookup_insert_ne hkd]
  · by_cases hrest : rest = []
    · refine ⟨⟨inv.cities, ((inv.aliens.insert d (mapGet inv.aliens d ++ [a])).insert c
          []).erase c⟩, d, ?_, rfl, hmem, rfl, fun _ => ⟨?_, ?_, ?_⟩, fun h => absurd h hdc,
          fun k hk hkd => ?_, stripLabel_label⟩
      · unfold moveStep
        rw [if_neg hlen]
        simp only [hd, hget]
        rw [mapGet_insert_ne _ _ (Ne.symm hdc), hget, hrest]
        simp only [List.tail_cons, mapGet_insert_self, List.length_nil, if_true]
      · show (((inv.aliens.insert d _).insert c _).erase c).lookup d = _
        rw [AList.lookup_erase_ne hdc, AList.lookup_insert_ne hdc, AList.lookup_insert]
      · show mapGet (((inv.aliens.insert d _).insert c _).erase c) c = rest
        rw [mapGet_erase_self, hrest]
      · show c ∈ ((inv.aliens.insert d _).insert c _).erase c ↔ _
        rw [AList.mem_erase]
        exact ⟨fun h => absurd rfl h.1, fun h => absurd hrest h⟩
      · show (((inv.aliens.insert d _).insert c _).erase c).lookup k = _
        rw [AList.lookup_erase_ne hk, AList.lookup_insert_ne hk, AList.lookup_insert_ne hkd]
    · refine ⟨⟨inv.cities, (inv.aliens.insert d (mapGet inv.aliens d ++ [a])).insert c
          rest⟩, d, ?_, rfl, hmem, rfl, fun _ => ⟨?_, ?_, ?_⟩, fun h => absurd h hdc,
          fun k hk hkd => ?_, stripLabel_label⟩
      · unfold moveStep
        rw [if_neg hlen]
        simp only [hd, hget]
        rw [mapGet_insert_ne _ _ (Ne.symm hdc), hget]
        simp only [List.tail_cons, mapGet_insert_self]
        rw [if_neg (by simpa [List.length_eq_zero] using hrest)]
      · show ((inv.aliens.insert d _).insert c _).lookup d = _
        rw [AList.lookup_insert_ne hdc, AList.lookup_insert]
      · show mapGet ((inv.aliens.insert d _).insert c _) c = rest
        rw [mapGet_insert_self]
      · show c ∈ (inv.aliens.insert d _).insert c _ ↔ _
        rw [AList.mem_insert]
        exact ⟨fun _ => hrest, fun _ => Or.inl rfl⟩
      · show ((inv.aliens.insert d _).insert c _).lookup k = _
        rw [AList.lookup_insert_ne hk, AList.lookup_insert_ne hkd]

/-- Witness for C15: alien 0 moves from `A` to `D` in `threeToOne`. -/
theorem moveStep_effect_witness :
    mapGet threeToOne.cities "A".toList ≠ [] ∧
    threeToOne.aliens.lookup "A".toList = some [0] ∧
    ∃ inv' d, moveStep threeToOne "A".toList 0 = .ok inv' ∧ d = "D".toList ∧
      inv'.cities = threeToOne.cities ∧
      inv'.aliens.lookup d = some (mapGet threeToOne.aliens d ++ [0]) ∧
      "A".toList ∉ inv'.aliens := by
  obtain ⟨inv', d, h1, h2, -, h4, h5, -, -, -⟩ :=
    moveStep_effect threeToOne "A".toList 0 0 [] (by decide) (by decide)
  have hd : d = "D".toList := by rw [h2]; decide
  have hne : d ≠ "A".toList := by rw [hd]; decide
  exact ⟨by decide, by decide, inv', d, h1, hd, h4, (h5 hne).1,
    fun hin => ((h5 hne).2.2.mp hin) rfl⟩

/-! ## The graph only shrinks -/

/-- Overwriting an element by `x` gives a list that is part of the list followed by `x`. -/
theorem set_subperm_append {α : Type} (x : α) : ∀ (l : List α) (i : Nat),
    (l.set i x).Subperm (l ++ [x]) := by
  intro l
  induction l with
  | nil => intro i; simp
  | cons a l ih =>
    intro i
    cases i with
    | zero =>
      simp only [List.set_cons_zero, List.cons_append]
      exact (List.perm_append_singleton x l).symm.subperm.trans
        (List.sublist_cons_self a (l ++ [x])).subperm
    | succ i =>
      simp only [List.set_cons_succ, List.cons_append]
      exact (List.subperm_cons a).mpr (ih i)

/-- The slice the inner loop leaves is part of the slice it was given. -/
theorem removeLoop_subperm (city : Str) : ∀ (todo i : Nat) (arr : List Str) (len : Nat)
    (arr' : List Str) (len' : Nat), len ≤ arr.length →
    removeLoop city todo i arr len = .ok (arr', len') →
    (arr'.take len').Subperm (arr.take len) ∧ arr'.length = arr.length ∧ len' ≤ len := by
  intro todo
  induction todo with
  | zero =>
    intro i arr len arr' len' _ h
    simp only [removeLoop, Except.ok.injEq, Prod.mk.injEq] at h
    obtain ⟨rfl, rfl⟩ := h
    exact ⟨List.Subperm.refl _, rfl, le_refl _⟩
  | succ n ih =>
    intro i arr len arr' len' hle h
    unfold removeLoop at h
    split_ifs at h with hit hlt
    · obtain ⟨e1, e2, e3⟩ := ih (i + 1) _ (len - 1) arr' len'
        (by rw [List.length_set]; omega) h
      refine ⟨e1.trans ?_, by rw [e2, List.length_set], by omega⟩
      rw [List.set_take]
      have hsplit : arr.take len = arr.take (len - 1) ++ [arr.getD (len - 1) []] := by
        have hl : len = (len - 1) + 1 := by omega
        conv_lhs => rw [hl, List.take_succ]
        rw [List.getD_eq_getElem?_getD, List.getElem?_eq_getElem (by omega)]
        rfl
      rw [hsplit]
      exact set_subperm_append _ _ _
    · exact ih (i + 1) arr len arr' len' hle h

/-- The outer loop leaves to every city other than `city` a part of its edge list. -/
theorem neighborLoop_subperm (city : Str) : ∀ (todo j : Nat) (own : List Str)
    (cities : CityMap) (own' : List Str) (cities' : CityMap),
    neighborLoop city todo j own cities = .ok (own', cities') →
    ∀ k, k ≠ city → (mapGet cities' k).Subperm (mapGet cities k) := by
  intro todo
  induction todo with
  | zero =>
    intro j own cities own' cities' h k _
    simp only [neighborLoop, Except.ok.injEq, Prod.mk.injEq] at h
    rw [h.2]
  | succ n ih =>
    intro j own cities own' cities' h k hk
    simp only [neighborLoop] at h
    split at h
    · exact ih _ _ _ _ _ h k hk
    · rename_i cur hcur
      split at h
      · cases h
      · rename_i arr len hrl
        refine (ih _ _ _ _ _ h k hk).trans ?_
        by_cases hkn : k = stripLabel (own.getD j [])
        · have hnc : stripLabel (own.getD j []) ≠ city := fun hc => hk (hkn.trans hc)
          rw [if_neg hnc] at hrl
          rw [hkn, mapGet_insert_self, mapGet_of_lookup hcur]
          have := (removeLoop_subperm city _ _ _ _ _ _ (le_refl _) hrl).1
          rwa [List.take_length] at this
        · rw [mapGet_insert_ne _ _ hkn]

/-- A call of `destroyCity` leaves to every city a part of its edge list. -/
theorem destroyCity_subperm {inv inv' : Invasion} {ev : Event} {c : Str}
    (h : destroyCity inv c = .ok (inv', ev)) :
    ∀ k, (mapGet inv'.cities k).Subperm (mapGet inv.cities k) := by
  obtain ⟨own, cities, hnl, rfl, -⟩ := destroyCity_spec h
  intro k
  by_cases hk : k = c
  · subst hk
    show (mapGet (cities.erase k) k).Subperm _
    rw [mapGet_erase_self]
    exact List.nil_subperm
  · show (mapGet (cities.erase c) k).Subperm _
    rw [mapGet_erase_ne _ hk]
    exact neighborLoop_subperm c _ _ _ _ _ _ hnl k hk

/-- The first pass removes cities and leaves to every city a part of its edge list. -/
theorem destructionPhase_shrinks {order : List Str} : ∀ {inv inv' : Invasion}
    {evs : List Event}, destructionPhase inv order = .ok (inv', evs) →
    (∀ k, k ∈ inv'.cities → k ∈ inv.cities) ∧
      ∀ k, (mapGet inv'.cities k).Subperm (mapGet inv.cities k) := by
  induction order with
  | nil =>
    intro inv inv' evs h
    simp only [destructionPhase, Except.ok.injEq, Prod.mk.injEq] at h
    obtain ⟨rfl, rfl⟩ := h
    exact ⟨fun k hk => hk, fun k => List.Subperm.refl _⟩
  | cons c rest ih =>
    intro inv inv' evs h
    simp only [destructionPhase] at h
    split_ifs at h with h2
    · split at h
      · cases h
      · rename_i inv1 ev hd
        split at h
        · cases h
        · rename_i inv2 evs2 hp
          simp only [Except.ok.injEq, Prod.mk.injEq] at h
          obtain ⟨rfl, rfl⟩ := h
          obtain ⟨e1, e2⟩ := ih hp
          exact ⟨fun k hk => ((destroyCity_mem_cities hd k).mp (e1 k hk)).2,
            fun k => (e2 k).trans (destroyCity_subperm hd k)⟩
    · exact ih h

/-- A move step leaves the city map as it was. -/
theorem moveStep_cities {inv inv' : Invasion} {city : Str} {r : Nat}
    (h : moveStep inv city r = .ok inv') : inv'.cities = inv.cities := by
  unfold moveStep at h
  split_ifs at h with h0
  · simp only [Except.ok.injEq] at h
    rw [← h]
  · simp only at h
    split at h
    · cases h
    · simp only [Except.ok.injEq] at h
      rw [← h]

/-- The second pass leaves the city map as it was. -/
theorem movePhase_cities {moves : List (Str × Nat)} : ∀ {inv inv' : Invasion},
    movePhase inv moves = .ok inv' → inv'.cities = inv.cities := by
  induction moves with
  | nil =>
    intro inv inv' h
    simp only [movePhase, Except.ok.injEq] at h
    rw [h]
  | cons m rest ih =>
    intro inv inv' h
    obtain ⟨city, r⟩ := m
    simp only [movePhase] at h
    split at h
    · cases h
    · rename_i inv1 hs
      rw [ih h, moveStep_cities hs]

/-- C17. After a turn that completes, whatever the orders and the draws, every city
of the map was a city before the turn and its edge list is part of the one it
had, as a list without order; the second pass leaves the city map as it was. -/
theorem turn_graph_shrinks (inv inv' : Invasion) (ch : TurnChoice) (evs : List Event)
    (h : turn inv ch = .ok (inv', evs)) :
    (∀ k, k ∈ inv'.cities → k ∈ inv.cities) ∧
    (∀ k, k ∈ inv'.cities → (mapGet inv'.cities k).Subperm (mapGet inv.cities k)) ∧
    (∀ (s s' : Invasion) (moves : List (Str × Nat)),
      movePhase s moves = .ok s' → s'.cities = s.cities) := by
  obtain ⟨inv1, hd, hm⟩ := turn_spec h
  obtain ⟨e1, e2⟩ := destructionPhase_shrinks hd
  rw [movePhase_cities hm]
  exact ⟨e1, fun k _ => e2 k, fun s s' moves hs => movePhase_cities hs⟩

/-- Witness for C17: the turn that destroys `A` in `threeCities` and moves alien 2
from `C` to `B`. -/
theorem turn_graph_shrinks_witness :
    turn threeCities ⟨["A".toList, "C".toList], [("C".toList, 0)]⟩ =
      .ok (⟨threeCitiesAfter.cities, aliensOf [("B", [2])]⟩, [⟨"A".toList, 0, 1⟩]) ∧
    (∀ k, k ∈ threeCitiesAfter.cities → k ∈ threeCities.cities) ∧
    (∀ k, k ∈ threeCitiesAfter.cities →
      (mapGet threeCitiesAfter.cities k).Subperm (mapGet threeCities.cities k)) ∧
    (∀ (s s' : Invasion) (moves : List (Str × Nat)),
      movePhase s moves = .ok s' → s'.cities = s.cities) :=
  ⟨rfl, turn_graph_shrinks threeCities ⟨threeCitiesAfter.cities, aliensOf [("B", [2])]⟩
    ⟨["A".toList, "C".toList], [("C".toList, 0)]⟩ [⟨"A".toList, 0, 1⟩] rfl⟩

/-! ## Alien identity -/

/-- A move step rearranges the aliens of the map: none is lost, none is added. -/
theorem moveStep_allAliens {inv inv' : Invasion} {city : Str} {r : Nat}
    (h : moveStep inv city r = .ok inv') :
    (allAliens inv'.aliens).Perm (allAliens inv.aliens) := by
  unfold moveStep at h
  split_ifs at h with h0
  · simp only [Except.ok.injEq] at h
    rw [← h]
  · simp only at h
    split at h
    · cases h
    · rename_i a rest hal
      simp only [Except.ok.injEq] at h
      subst h
      simp only
      generalize stripLabel ((mapGet inv.cities city).getD
        (r % (mapGet inv.cities city).length) []) = f
      have h1 := allAliens_append inv.aliens f a
      obtain ⟨tl, htl⟩ : ∃ tl, mapGet (inv.aliens.insert f (mapGet inv.aliens f ++ [a])) city =
          a :: tl := by
        by_cases hcf : city = f
        · subst hcf
          rw [mapGet_insert_self, hal]
          exact ⟨_, rfl⟩
        · rw [mapGet_insert_ne _ _ hcf, hal]
          exact ⟨_, rfl⟩
      have h2 := allAliens_erase (inv.aliens.insert f (mapGet inv.aliens f ++ [a])) city
      rw [htl] at h2
      have h3 : (allAliens ((inv.aliens.insert f (mapGet inv.aliens f ++ [a])).insert city
          (mapGet (inv.aliens.insert f (mapGet inv.aliens f ++ [a])) city).tail)).Perm
          (allAliens inv.aliens) := by
        rw [allAliens_insert, htl, List.tail_cons]
        have h4 : (a :: (tl ++ allAliens ((inv.aliens.insert f
            (mapGet inv.aliens f ++ [a])).erase city))).Perm (a :: allAliens inv.aliens) :=
          (h2.trans h1).trans (List.perm_append_singleton a _)
        exact h4.cons_inv
      split_ifs with hz
      · have h5 := allAliens_erase ((inv.aliens.insert f (mapGet inv.aliens f ++ [a])).insert
          city (mapGet (inv.aliens.insert f (mapGet inv.aliens f ++ [a])) city).tail) city
        rw [List.length_eq_zero.mp hz, List.nil_append] at h5
        exact h5.trans h3
      · exact h3

/-- The second pass rearranges the aliens of the map. -/
theorem movePhase_allAliens {moves : List (Str × Nat)} : ∀ {inv inv' : Invasion},
    movePhase inv moves = .ok inv' → (allAliens inv'.aliens).Perm (allAliens inv.aliens) := by
  induction moves with
  | nil =>
    intro inv inv' h
    simp only [movePhase, Except.ok.injEq] at h
    rw [h]
  | cons m rest ih =>
    intro inv inv' h
    obtain ⟨city, r⟩ := m
    simp only [movePhase] at h
    split at h
    · cases h
    · rename_i inv1 hs
      exact (ih h).trans (moveStep_allAliens hs)

/-- The first pass removes aliens only: those it leaves were there, and one that is
gone was in a city for which an event was printed. -/
theorem destructionPhase_allAliens {order : List Str} : ∀ {inv inv' : Invasion}
    {evs : List Event}, destructionPhase inv order = .ok (inv', evs) →
    (allAliens inv'.aliens).Subperm (allAliens inv.aliens) ∧
      ∀ id ∈ allAliens inv.aliens, id ∈ allAliens inv'.aliens ∨
        ∃ ev ∈ evs, id ∈ mapGet inv.aliens ev.city := by
  induction order with
  | nil =>
    intro inv inv' evs h
    simp only [destructionPhase, Except.ok.injEq, Prod.mk.injEq] at h
    obtain ⟨rfl, rfl⟩ := h
    exact ⟨List.Subperm.refl _, fun id hid => Or.inl hid⟩
  | cons c rest ih =>
    intro inv inv' evs h
    simp only [destructionPhase] at h
    split_ifs at h with h2
    · split at h
      · cases h
      · rename_i inv1 ev hd
        split at h
        · cases h
        · rename_i inv2 evs2 hp
          simp only [Except.ok.injEq, Prod.mk.injEq] at h
          obtain ⟨rfl, rfl⟩ := h
          obtain ⟨e1, e2⟩ := ih hp
          have hal := destroyCity_aliens hd
          obtain ⟨_, _, _, _, _, _, hcity⟩ := destroyCity_spec hd
          have hperm := allAliens_erase inv.aliens c
          rw [← hal] at hperm
          refine ⟨e1.trans ((List.sublist_append_right _ _).subperm.trans hperm.subperm),
            fun id hid => ?_⟩
          rcases List.mem_append.mp (hperm.symm.subset hid) with h3 | h3
          · exact Or.inr ⟨ev, List.mem_cons_self _ _, by rw [hcity]; exact h3⟩
          · rcases e2 id h3 with h4 | ⟨ev2, hev2, h4⟩
            · exact Or.inl h4
            · refine Or.inr ⟨ev2, List.mem_cons_of_mem _ hev2, ?_⟩
              rw [hal] at h4
              by_cases hk : ev2.city = c
              · rw [hk, mapGet_erase_self] at h4
                simp at h4
              · rwa [mapGet_erase_ne _ hk] at h4
    · exact ih h

/-- C18. If no alien occurs twice in the alien map, then after a turn that completes,
whatever the orders and the draws, none occurs twice, every alien of the map
was in it before the turn, and an alien that is gone was, before the turn, in a
city that the turn destroyed. -/
theorem turn_aliens_conserved (inv inv' : Invasion) (ch : TurnChoice) (evs : List Event)
    (hnd : (allAliens inv.aliens).Nodup) (h : turn inv ch = .ok (inv', evs)) :
    (allAliens inv'.aliens).Nodup ∧
    (∀ id ∈ allAliens inv'.aliens, id ∈ allAliens inv.aliens) ∧
    (∀ id ∈ allAliens inv.aliens, id ∉ allAliens inv'.aliens →
      ∃ ev ∈ evs, id ∈ mapGet inv.aliens ev.city) := by
  obtain ⟨inv1, hd, hm⟩ := turn_spec h
  obtain ⟨e1, e2⟩ := destructionPhase_allAliens hd
  have hp := movePhase_allAliens hm
  have hsub : (allAliens inv'.aliens).Subperm (allAliens inv.aliens) := hp.subperm.trans e1
  refine ⟨?_, fun id hid => hsub.subset hid, fun id hid hnot => ?_⟩
  · obtain ⟨l, hl, hs⟩ := hsub
    exact hl.nodup_iff.mp (hnd.sublist hs)
  · rcases e2 id hid with h1 | h1
    · exact absurd (hp.symm.subset h1) hnot
    · exact h1

/-- Witness for C18: the turn that destroys `A` in `threeCities` and moves alien 2
from `C` to `B`. -/
theorem turn_aliens_conserved_witness :
    (allAliens threeCities.aliens).Nodup ∧
    turn threeCities ⟨["A".toList, "C".toList], [("C".toList, 0)]⟩ =
      .ok (⟨threeCitiesAfter.cities, aliensOf [("B", [2])]⟩, [⟨"A".toList, 0, 1⟩]) ∧
    (allAliens (aliensOf [("B", [2])])).Nodup ∧
    (∀ id ∈ allAliens (aliensOf [("B", [2])]), id ∈ allAliens threeCities.aliens) ∧
    (∀ id ∈ allAliens threeCities.aliens, id ∉ allAliens (aliensOf [("B", [2])]) →
      ∃ ev ∈ ([⟨"A".toList, 0, 1⟩] : List Event), id ∈ mapGet threeCities.aliens ev.city) :=
  ⟨by decide, rfl,
    turn_aliens_conserved threeCities ⟨threeCitiesAfter.cities, aliensOf [("B", [2])]⟩
      ⟨["A".toList, "C".toList], [("C".toList, 0)]⟩ [⟨"A".toList, 0, 1⟩] (by decide) rfl⟩

/-! ## No key with an empty list -/

/-- Assigning a non-empty list keeps every list non-empty. -/
theorem nonEmpty_insert {m : AlienMap} (h : NonEmptyEntries m) (k : Str) {v : List Int}
    (hv : v ≠ []) : NonEmptyEntries (m.insert k v) := by
  intro k' l hl
  by_cases hk : k' = k
  · subst hk
    rw [AList.lookup_insert] at hl
    simp only [Option.some.injEq] at hl
    rw [← hl]
    exact hv
  · rw [AList.lookup_insert_ne hk] at hl
    exact h k' l hl

/-- Deleting a key keeps every list non-empty. -/
theorem nonEmpty_erase {m : AlienMap} (h : NonEmptyEntries m) (k : Str) :
    NonEmptyEntries (m.erase k) := by
  intro k' l hl
  by_cases hk : k' = k
  · subst hk
    rw [AList.lookup_erase] at hl
    cases hl
  · rw [AList.lookup_erase_ne hk] at hl
    exact h k' l hl

/-- The placing loop keeps every list non-empty. -/
theorem placeAliens_nonEmpty (uc : List Str) : ∀ (todo : Nat) (i : Int) (aliens : AlienMap)
    (draws : List Nat) (m : AlienMap),
    placeAliens uc todo i aliens draws = .ok (some m) → NonEmptyEntries aliens →
    NonEmptyEntries m := by
  intro todo
  induction todo with
  | zero =>
    intro i aliens draws m h hne
    simp only [placeAliens, Except.ok.injEq, Option.some.injEq] at h
    rw [← h]
    exact hne
  | succ n ih =>
    intro i aliens draws m h hne
    simp only [placeAliens] at h
    split_ifs at h with h0
    split at h
    · simp at h
    · exact ih _ _ _ m h (nonEmpty_insert hne _ (List.append_ne_nil_of_right_ne_nil _ (by simp)))

/-- A move step keeps every list non-empty. -/
theorem moveStep_nonEmpty {inv inv' : Invasion} {city : Str} {r : Nat}
    (h : moveStep inv city r = .ok inv') (hne : NonEmptyEntries inv.aliens) :
    NonEmptyEntries inv'.aliens := by
  unfold moveStep at h
  split_ifs at h with h0
  · simp only [Except.ok.injEq] at h
    rw [← h]
    exact hne
  · simp only at h
    split at h
    · cases h
    · rename_i a rest hal
      simp only [Except.ok.injEq] at h
      subst h
      simp only
      split_ifs with hz
      · intro k' l hl
        by_cases hk : k' = city
        · subst hk
          rw [AList.lookup_erase] at hl
          cases hl
        · rw [AList.lookup_erase_ne hk, AList.lookup_insert_ne hk] at hl
          exact nonEmpty_insert hne _ (List.append_ne_nil_of_right_ne_nil _ (by simp)) k' l hl
      · apply nonEmpty_insert
          (nonEmpty_insert hne _ (List.append_ne_nil_of_right_ne_nil _ (by simp)))
        intro he
        apply hz
        rw [mapGet_insert_self, he]
        rfl

/-- The second pass keeps every list non-empty. -/
theorem movePhase_nonEmpty {moves : List (Str × Nat)} : ∀ {inv inv' : Invasion},
    movePhase inv moves = .ok inv' → NonEmptyEntries inv.aliens →
    NonEmptyEntries inv'.aliens := by
  induction moves with
  | nil =>
    intro inv inv' h hne
    simp only [movePhase, Except.ok.injEq] at h
    rw [← h]
    exact hne
  | cons m rest ih =>
    intro inv inv' h hne
    obtain ⟨city, r⟩ := m
    simp only [movePhase] at h
    split at h
    · cases h
    · rename_i inv1 hs
      exact ih h (moveStep_nonEmpty hs hne)

/-- The first pass keeps every list non-empty. -/
theorem destructionPhase_nonEmpty {order : List Str} : ∀ {inv inv' : Invasion}
    {evs : List Event}, destructionPhase inv order = .ok (inv', evs) →
    NonEmptyEntries inv.aliens → NonEmptyEntries inv'.aliens := by
  induction order with
  | nil =>
    intro inv inv' evs h hne
    simp only [destructionPhase, Except.ok.injEq, Prod.mk.injEq] at h
    rw [← h.1]
    exact hne
  | cons c rest ih =>
    intro inv inv' evs h hne
    simp only [destructionPhase] at h
    split_ifs at h with h2
    · split at h
      · cases h
      · rename_i inv1 ev hd
        split at h
        · cases h
        · rename_i inv2 evs2 hp
          simp only [Except.ok.injEq, Prod.mk.injEq] at h
          rw [← h.1]
          apply ih hp
          rw [destroyCity_aliens hd]
          exact nonEmpty_erase hne c
    · exact ih h hne

/-- The move step returns for a key of the alien map whose list is not empty. -/
theorem moveStep_returns {inv : Invasion} {city : Str} (r : Nat)
    (hne : NonEmptyEntries inv.aliens) (hk : city ∈ inv.aliens) :
    ∃ inv', moveStep inv city r = .ok inv' := by
  obtain ⟨l, hl⟩ := Option.isSome_iff_exists.mp (AList.lookup_isSome.mpr hk)
  have hnil := hne city l hl
  unfold moveStep
  split_ifs with h0
  · exact ⟨_, rfl⟩
  · simp only [mapGet_of_lookup hl]
    cases l with
    | nil => exact absurd rfl hnil
    | cons a rest => exact ⟨_, rfl⟩

/-- A move step deletes no key but the one it visits. -/
theorem moveStep_keeps_keys {inv inv' : Invasion} {city : Str} {r : Nat}
    (h : moveStep inv city r = .ok inv') :
    ∀ k, k ≠ city → k ∈ inv.aliens → k ∈ inv'.aliens := by
  intro k hk hin
  unfold moveStep at h
  split_ifs at h with h0
  · simp only [Except.ok.injEq] at h
    rw [← h]
    exact hin
  · simp only at h
    split at h
    · cases h
    · simp only [Except.ok.injEq] at h
      subst h
      simp only
      split_ifs
      · rw [AList.mem_erase, AList.mem_insert, AList.mem_insert]
        exact ⟨hk, Or.inr (Or.inr hin)⟩
      · rw [AList.mem_insert, AList.mem_insert]
        exact Or.inr (Or.inr hin)

/-- Under the keys the second range may yield, the second pass returns: as long as
the keys still to be yielded and the keys created are distinct keys of the alien
map, and every list is non-empty, no step reads the front of an empty list. -/
theorem movePhase_returns : ∀ (moves : List (Str × Nat)) (inv : Invasion)
    (pending fresh : List Str), NonEmptyEntries inv.aliens →
    (pending ++ fresh).Nodup → (∀ k ∈ pending ++ fresh, k ∈ inv.aliens) →
    validMoves inv pending fresh moves = true →
    ∃ inv', movePhase inv moves = .ok inv' := by
  intro moves
  induction moves with
  | nil => intro inv _ _ _ _ _ _; exact ⟨inv, rfl⟩
  | cons m rest ih =>
    intro inv pending fresh hne hnd hkeys hv
    obtain ⟨city, r⟩ := m
    simp only [validMoves, Bool.and_eq_true, Bool.or_eq_true, decide_eq_true_eq] at hv
    obtain ⟨hmem, hv⟩ := hv
    have hin : city ∈ inv.aliens := hkeys city (List.mem_append.mpr hmem)
    obtain ⟨inv1, hstep⟩ := moveStep_returns r hne hin
    rw [hstep] at hv
    simp only [movePhase, hstep]
    have hndp : pending.Nodup := (List.nodup_append.mp hnd).1
    have hndf : fresh.Nodup := (List.nodup_append.mp hnd).2.1
    have hold : ∀ x, x ∈ pending.erase city ++ fresh.erase city →
        x ≠ city ∧ x ∈ pending ++ fresh := by
      intro x hx
      rcases List.mem_append.mp hx with h1 | h1
      · have := (List.Nodup.mem_erase_iff hndp).mp h1
        exact ⟨this.1, List.mem_append_left _ this.2⟩
      · have := (List.Nodup.mem_erase_iff hndf).mp h1
        exact ⟨this.1, List.mem_append_right _ this.2⟩
    apply ih inv1 _ _ (moveStep_nonEmpty hstep hne) _ _ hv
    · rw [← List.append_assoc, List.nodup_append]
      refine ⟨hnd.sublist ((List.erase_sublist _ _).append (List.erase_sublist _ _)),
        (AList.keys_nodup _).filter _, ?_⟩
      intro x hx hx'
      simp only [List.mem_filter, decide_eq_true_eq] at hx'
      exact hx'.2 (AList.mem_keys.mp (hkeys x (hold x hx).2))
    · intro x hx
      rw [← List.append_assoc] at hx
      rcases List.mem_append.mp hx with h1 | h1
      · exact moveStep_keeps_keys hstep x (hold x h1).1 (hkeys x (hold x h1).2)
      · simp only [List.mem_filter, decide_eq_true_eq] at h1
        exact AList.mem_keys.mpr h1.1

/-- C16. Every key of an alien map that `populateAliens` returns holds a non-empty
list; a call of `destroyCity`, a move step and a full turn keep it so; and in a
state where it is so, the second pass, on the keys a Go execution can yield,
returns: it never reads the front alien of an empty list. -/
theorem nonEmptyEntries_invariant :
    (∀ (numAliens : Int) (cities : CityMap) (uniqueCities : List Str) (draws : List Nat)
      (m : AlienMap), populateAliens numAliens cities uniqueCities draws = .ok (some m) →
      NonEmptyEntries m) ∧
    (∀ (inv inv' : Invasion) (c : Str) (ev : Event), destroyCity inv c = .ok (inv', ev) →
      NonEmptyEntries inv.aliens → NonEmptyEntries inv'.aliens) ∧
    (∀ (inv inv' : Invasion) (c : Str) (r : Nat), moveStep inv c r = .ok inv' →
      NonEmptyEntries inv.aliens → NonEmptyEntries inv'.aliens) ∧
    (∀ (inv inv' : Invasion) (ch : TurnChoice) (evs : List Event),
      turn inv ch = .ok (inv', evs) →
      NonEmptyEntries inv.aliens → NonEmptyEntries inv'.aliens) ∧
    (∀ (inv : Invasion) (moves : List (Str × Nat)), NonEmptyEntries inv.aliens →
      validMoves inv inv.aliens.keys [] moves = true →
      ∃ inv', movePhase inv moves = .ok inv' ∧ NonEmptyEntries inv'.aliens) := by
  refine ⟨?_, ?_, ?_, ?_, ?_⟩
  · intro numAliens cities uniqueCities draws m h
    unfold populateAliens at h
    split_ifs at h
    exact placeAliens_nonEmpty _ _ _ _ _ m h (fun k l hl => by simp at hl)
  · intro inv inv' c ev h hne
    rw [destroyCity_aliens h]
    exact nonEmpty_erase hne c
  · intro inv inv' c r h hne
    exact moveStep_nonEmpty h hne
  · intro inv inv' ch evs h hne
    obtain ⟨inv1, hd, hm⟩ := turn_spec h
    exact movePhase_nonEmpty hm (destructionPhase_nonEmpty hd hne)
  · intro inv moves hne hv
    obtain ⟨inv', h⟩ := movePhase_returns moves inv inv.aliens.keys [] hne
      (by rw [List.append_nil]; exact AList.keys_nodup _)
      (fun k hk => by rw [List.append_nil] at hk; exact AList.mem_keys.mpr hk) hv
    exact ⟨inv', h, movePhase_nonEmpty h hne⟩

/-- Every list is non-empty when every entry holds a non-empty list. -/
theorem nonEmptyEntries_of_entries {m : AlienMap} (h : ∀ e ∈ m.entries, e.2 ≠ []) :
    NonEmptyEntries m :=
  fun k l hl => h ⟨k, l⟩ (AList.mem_lookup_iff.mp hl)

/-- Witness for C16: the map returned for three aliens on `threeToOne`, the
destruction of `A` in `threeCities`, the move of alien 0 in `threeToOne`, and the
turn and the second pass that move the three aliens of `threeToOne` to `D`. -/
theorem nonEmptyEntries_invariant_witness :
    (populateAliens 3 threeToOne.cities ["A".toList, "B".toList, "C".toList, "D".toList]
        [0, 1, 2] = .ok (some (aliensOf [("C", [2]), ("B", [1]), ("A", [0])])) ∧
      NonEmptyEntries (aliensOf [("C", [2]), ("B", [1]), ("A", [0])])) ∧
    (destroyCity threeCities "A".toList = .ok (threeCitiesAfter, ⟨"A".toList, 0, 1⟩) ∧
      NonEmptyEntries threeCities.aliens ∧ NonEmptyEntries threeCitiesAfter.aliens) ∧
    (moveStep threeToOne "A".toList 0 =
        .ok ⟨threeToOne.cities, aliensOf [("D", [0]), ("B", [1]), ("C", [2])]⟩ ∧
      NonEmptyEntries threeToOne.aliens ∧
      NonEmptyEntries (aliensOf [("D", [0]), ("B", [1]), ("C", [2])])) ∧
    (turn threeToOne ⟨["A".toList, "B".toList, "C".toList],
        [("A".toList, 0), ("B".toList, 0), ("C".toList, 0)]⟩ =
        .ok (⟨threeToOne.cities, aliensOf [("D", [0, 1, 2])]⟩, []) ∧
      NonEmptyEntries (aliensOf [("D", [0, 1, 2])])) ∧
    (validMoves threeToOne threeToOne.aliens.keys []
        [("A".toList, 0), ("B".toList, 0), ("C".toList, 0)] = true ∧
      ∃ inv', movePhase threeToOne [("A".toList, 0), ("B".toList, 0), ("C".toList, 0)] =
        .ok inv' ∧ NonEmptyEntries inv'.aliens) :=
  ⟨⟨rfl, nonEmptyEntries_invariant.1 3 threeToOne.cities
      ["A".toList, "B".toList, "C".toList, "D".toList] [0, 1, 2] _ rfl⟩,
    ⟨rfl, nonEmptyEntries_of_entries (by decide),
      nonEmptyEntries_invariant.2.1 threeCities threeCitiesAfter "A".toList ⟨"A".toList, 0, 1⟩
        rfl (nonEmptyEntries_of_entries (by decide))⟩,
    ⟨rfl, nonEmptyEntries_of_entries (by decide),
      nonEmptyEntries_invariant.2.2.1 threeToOne
        ⟨threeToOne.cities, aliensOf [("D", [0]), ("B", [1]), ("C", [2])]⟩ "A".toList 0 rfl
        (nonEmptyEntries_of_entries (by decide))⟩,
    ⟨rfl, nonEmptyEntries_invariant.2.2.2.1 threeToOne
        ⟨threeToOne.cities, aliensOf [("D", [0, 1, 2])]⟩
        ⟨["A".toList, "B".toList, "C".toList],
          [("A".toList, 0), ("B".toList, 0), ("C".toList, 0)]⟩ [] rfl
        (nonEmptyEntries_of_entries (by decide))⟩,
    ⟨by decide, nonEmptyEntries_invariant.2.2.2.2 threeToOne
        [("A".toList, 0), ("B".toList, 0), ("C".toList, 0)]
        (nonEmptyEntries_of_entries (by decide)) (by decide)⟩⟩

/-! ## Dead ends -/

/-- In a state of dead ends the second pass, on the keys a Go execution can yield,
changes nothing. -/
theorem movePhase_dead_ends (inv : Invasion) : ∀ (moves : List (Str × Nat))
    (pending fresh : List Str), (∀ k ∈ pending ++ fresh, mapGet inv.cities k = []) →
    validMoves inv pending fresh moves = true → movePhase inv moves = .ok inv := by
  intro moves
  induction moves with
  | nil => intro _ _ _ _; rfl
  | cons m rest ih =>
    intro pending fresh hk hv
    obtain ⟨city, r⟩ := m
    simp only [validMoves, Bool.and_eq_true, Bool.or_eq_true, decide_eq_true_eq] at hv
    obtain ⟨hmem, hv⟩ := hv
    have hstep := moveStep_dead_end inv city r (hk city (List.mem_append.mpr hmem))
    rw [hstep] at hv
    simp only [movePhase, hstep]
    apply ih _ _ _ hv
    intro x hx
    rcases List.mem_append.mp hx with h1 | h1
    · exact hk x (List.mem_append_left _ (List.mem_of_mem_erase h1))
    · rcases List.mem_append.mp h1 with h2 | h2
      · exact hk x (List.mem_append_right _ (List.mem_of_mem_erase h2))
      · simp only [List.mem_filter, decide_eq_true_eq] at h2
        exact absurd h2.1 h2.2

/-- In a state of dead ends a turn, on the choices a Go execution can make, changes
nothing and prints nothing. -/
theorem turn_dead_ends {inv : Invasion} {ch : TurnChoice} (hdead : DeadEnds inv)
    (hv : ValidTurn inv ch) : turn inv ch = .ok (inv, []) := by
  have hd : destructionPhase inv ch.order = .ok (inv, []) :=
    destructionPhase_noop (mapGet_length_of_entries _ 2
      (fun e he => by have := (hdead e he).1; omega) (by decide))
  have hm : movePhase inv ch.moves = .ok inv :=
    movePhase_dead_ends inv ch.moves inv.aliens.keys [] (by
      intro k hk
      rw [List.append_nil] at hk
      obtain ⟨l, hl⟩ := Option.isSome_iff_exists.mp
        (AList.lookup_isSome.mpr (AList.mem_keys.mpr hk))
      exact (hdead ⟨k, l⟩ (AList.mem_lookup_iff.mp hl)).2) (validTurn_spec hv hd).2
  simp only [turn, hd, hm]

/-- The loop of `runSimulation` in a state that no turn changes and that holds an
alien: it runs until the counter reaches the bound. -/
theorem simLoop_fixed (choice : Nat → TurnChoice) (inv : Invasion)
    (hne : mapLen inv.aliens ≠ 0) : ∀ (left t : Nat) (out : List Event),
    (∀ u, t ≤ u → u < t + left → turn inv (choice u) = .ok (inv, [])) →
    simLoop choice left t inv out = .ok ⟨inv, t + left, out⟩ := by
  intro left
  induction left with
  | zero => intro t out _; rfl
  | succ n ih =>
    intro t out h
    simp only [simLoop]
    rw [if_pos hne, h t (le_refl _) (by omega)]
    simp only [List.append_nil]
    rw [ih (t + 1) out (fun u h1 h2 => h u (by omega) (by omega))]
    rw [show t + 1 + n = t + (n + 1) by omega]

/-- C19 (amended). In a state of dead ends (every key of the alien map holds one alien
and names a city without edges), a full turn, on the choices a Go execution can
make, leaves both maps as they were.  If the alien map is not empty,
`runSimulation` completes 10000 turns and returns the initial state, having
printed nothing; if it is empty, it returns the initial state after no turn. -/
theorem runSimulation_dead_ends (inv : Invasion) (choice : Nat → TurnChoice)
    (hdead : DeadEnds inv) (hvalid : ∀ t, t < 10000 → ValidTurn inv (choice t)) :
    (∀ ch, ValidTurn inv ch → turn inv ch = .ok (inv, [])) ∧
    (mapLen inv.aliens ≠ 0 → runSimulation inv choice = .ok ⟨inv, 10000, []⟩) ∧
    (mapLen inv.aliens = 0 → runSimulation inv choice = .ok ⟨inv, 0, []⟩) := by
  refine ⟨fun ch hv => turn_dead_ends hdead hv, fun hne => ?_, fun h0 => ?_⟩
  · have := simLoop_fixed choice inv hne 10000 0 []
      (fun u _ hu => turn_dead_ends hdead (hvalid u (by omega)))
    rw [Nat.zero_add] at this
    exact this
  · show simLoop choice (9999 + 1) 0 inv [] = _
    rw [simLoop, if_neg (by simpa using h0)]

/-- Witness for C19 (amended): alien 0 in the dead end `B`. -/
theorem runSimulation_dead_ends_witness :
    DeadEnds deadEnd ∧ (∀ t, t < 10000 → ValidTurn deadEnd ⟨["B".toList], [("B".toList, 0)]⟩) ∧
    mapLen deadEnd.aliens ≠ 0 ∧
    runSimulation deadEnd (fun _ => ⟨["B".toList], [("B".toList, 0)]⟩) =
      .ok ⟨deadEnd, 10000, []⟩ :=
  ⟨by decide, fun _ _ => by decide, by decide,
    (runSimulation_dead_ends deadEnd (fun _ => ⟨["B".toList], [("B".toList, 0)]⟩) (by decide)
      (fun _ _ => (by decide : ValidTurn deadEnd ⟨["B".toList], [("B".toList, 0)]⟩))).2.1
      (by decide)⟩

/-- C19 (counterexample). The state `noAliens` holds no alien, so each of its
occupied cities is a dead end with one alien; `runSimulation` returns after no
turn, not after 10000. -/
theorem runSimulation_no_alien_no_turn :
    DeadEnds noAliens ∧ ValidTurn noAliens ⟨[], []⟩ ∧
    ∃ r, runSimulation noAliens (fun _ => ⟨[], []⟩) = .ok r ∧ r.turns = 0 ∧ r.turns ≠ 10000 :=
  ⟨by decide, by decide, ⟨noAliens, 0, []⟩, rfl, rfl, by decide⟩

end AlienInvasion
